import Mathlib

/-!
Verification of `manipulability.py`: a Monte-Carlo study of strategic
manipulability of voting profiles under positional scoring rules
(plurality, Borda, Copeland).

The embedding below mirrors the Python source value-for-value:

* Python's `defaultdict(int)` score dictionaries become `ScoreMap`:
  an insertion-ordered key list together with a total score function
  that is zero off the keys (matching the default value).
* Python exceptions (`IndexError` from indexing an empty list,
  `ValueError` from `list.remove` / `max` on an empty sequence)
  become the `Except PyErr` monad.
* Python's `None` fall-through return of `Experiment.manipulable`
  (the function has no final `return`) is modelled by `Option Bool`:
  `some true` is `return True`, `none` is the implicit `None`.
* The `debug` flag of `Experiment` is an explicit argument: in the
  source, the `break` that stops scanning a voter's ballot once a
  winning alternative is reached sits inside `if self.debug:`, so the
  flag changes the control flow, and the embedding must keep it.
-/

inductive PyErr where
  | indexError
  | valueError
deriving DecidableEq, Repr

instance {ε α : Type} [DecidableEq ε] [DecidableEq α] : DecidableEq (Except ε α) := fun x y =>
  match x, y with
  | .error e₁, .error e₂ => decidable_of_iff (e₁ = e₂) (by simp)
  | .error _, .ok _ => isFalse (by simp)
  | .ok _, .error _ => isFalse (by simp)
  | .ok a₁, .ok a₂ => decidable_of_iff (a₁ = a₂) (by simp)

abbrev Ballot := List Nat
abbrev Profile := List Ballot

/-- A Python `defaultdict(int)` of scores: keys in insertion order plus a
total score function (zero for absent keys, the default value). -/
structure ScoreMap where
  keys : List Nat
  score : Nat → Int

def ScoreMap.empty : ScoreMap := ⟨[], fun _ => 0⟩

/-- `scores[a] += v` on a `defaultdict(int)`: inserts the key if absent. -/
def ScoreMap.bump (m : ScoreMap) (a : Nat) (v : Int) : ScoreMap :=
  { keys := if a ∈ m.keys then m.keys else m.keys ++ [a]
    score := fun x => if x = a then m.score x + v else m.score x }

abbrev Rule := Profile → Except PyErr ScoreMap

/-- One step of `plurality_scores`: `scores[ballot[0]] += 1`; indexing an
empty ballot raises `IndexError`. -/
def plurStep (m : ScoreMap) (b : Ballot) : Except PyErr ScoreMap :=
  match b with
  | [] => .error .indexError
  | a :: _ => .ok (m.bump a 1)

/-- `plurality_scores(profile)` from the source. -/
def plurality_scores (profile : Profile) : Except PyErr ScoreMap :=
  profile.foldlM plurStep ScoreMap.empty

/-- Inner loop of `borda_scores`:
`for i in range(len(ballot)): scores[ballot[i]] += len(ballot) - (i+1)`. -/
def bordaBallot (m : ScoreMap) (b : Ballot) : ScoreMap :=
  b.enum.foldl (fun m ia => m.bump ia.2 ((b.length - (ia.1 + 1) : Nat) : Int)) m

/-- `borda_scores(profile)` from the source (it never raises). -/
def borda_scores (profile : Profile) : Except PyErr ScoreMap :=
  .ok (profile.foldl bordaBallot ScoreMap.empty)

/-- Index pairs `(i, j)` with `i ≤ j < n`, in the order produced by
`for i in range(n): for j in range(i, n)`. -/
def upairs (n : Nat) : List (Nat × Nat) :=
  (List.range n).flatMap (fun i => (List.range' i (n - i)).map (fun j => (i, j)))

/-- `table[a][b] += 1` on the nested `defaultdict`. -/
def bump2 (t : Nat → Nat → Nat) (a b : Nat) : Nat → Nat → Nat :=
  fun x y => if x = a then (if y = b then t x y + 1 else t x y) else t x y

/-- One ballot's contribution to the Copeland table:
`table[ballot[i]][ballot[j]] += 1` for all `i ≤ j < n`. -/
def ballotTable (n : Nat) (t : Nat → Nat → Nat) (b : Ballot) : Nat → Nat → Nat :=
  (upairs n).foldl (fun t ij => bump2 t (b.getD ij.1 0) (b.getD ij.2 0)) t

/-- The full Copeland table accumulated over the profile. -/
def buildTable (n : Nat) (p : Profile) : Nat → Nat → Nat :=
  p.foldl (ballotTable n) (fun _ _ => 0)

/-- The pairwise-majority contest of `copeland_scores` for one index pair. -/
def copelandStep (t : Nat → Nat → Nat) (m : ScoreMap) (ij : Nat × Nat) : ScoreMap :=
  let balance : Int := (t ij.1 ij.2 : Int) - (t ij.2 ij.1 : Int)
  if balance = 0 then (m.bump ij.1 0).bump ij.2 0
  else if 0 < balance then (m.bump ij.1 1).bump ij.2 (-1)
  else (m.bump ij.1 (-1)).bump ij.2 1

/-- `copeland_scores(profile)` from the source: `n_alternatives` is the
length of the first ballot (`IndexError` on an empty profile); a ballot
shorter than that raises `IndexError` inside the table loop. -/
def copeland_scores (profile : Profile) : Except PyErr ScoreMap :=
  match profile with
  | [] => .error .indexError
  | b0 :: _ =>
    let n := b0.length
    if profile.any (fun b => b.length < n) then .error .indexError
    else .ok ((upairs n).foldl (copelandStep (buildTable n profile)) ScoreMap.empty)

/-- Python's `max` over a list of values: `ValueError` on an empty list. -/
def listMax : List Int → Option Int
  | [] => none
  | x :: xs => some (xs.foldl max x)

/-- `winners(scoring_rule, profile)` from the source. -/
def winners (scoring_rule : Rule) (profile : Profile) : Except PyErr (List Nat) :=
  match scoring_rule profile with
  | .error e => .error e
  | .ok scores =>
    match listMax (scores.keys.map scores.score) with
    | none => .error .valueError
    | some top => .ok (scores.keys.filter (fun a => scores.score a = top))

/-- The inner `for considered_alternative in other_alternatives` scan of
`search_manipulative_ballot`, including the opportunistic inner loop:
on a committed candidate `c` the code appends the maximal prefix of the
remaining alternatives whose score does not beat the favourite, then
breaks; if the scan is exhausted (`for`-`else`) it reports `none`. -/
def scanPass (rule : Rule) (inc : Profile) (fav : Nat) (ballot : Ballot) (others : List Nat) :
    List Nat → Except PyErr (Option (Ballot × List Nat))
  | [] => .ok none
  | c :: rest =>
    let remaining := others.erase c
    match rule (inc ++ [ballot ++ c :: remaining]) with
    | .error e => .error e
    | .ok scores =>
      if scores.score fav < scores.score c then
        scanPass rule inc fav ballot others rest
      else
        .ok (some (ballot ++ c :: remaining.takeWhile (fun r => !decide (scores.score fav < scores.score r)),
                   remaining.dropWhile (fun r => !decide (scores.score fav < scores.score r))))

/-- The `while other_alternatives:` loop. Each successful pass removes at
least one alternative, so `others.length` passes always suffice; the
fuel parameter makes the recursion structural, and `searchLoop_fuel`
below shows any fuel of at least `others.length` gives the same result. -/
def searchLoop (rule : Rule) (inc : Profile) (fav : Nat) :
    Nat → Ballot → List Nat → Except PyErr (Option Ballot)
  | _, ballot, [] => .ok (some ballot)
  | 0, _, _ :: _ => .ok none
  | fuel + 1, ballot, c :: rest =>
    match scanPass rule inc fav ballot (c :: rest) (c :: rest) with
    | .error e => .error e
    | .ok none => .ok none
    | .ok (some (b, o)) => searchLoop rule inc fav fuel b o

/-- `search_manipulative_ballot(rule, incomplete_profile, favourite_alternative)`
from the source: `IndexError` on an empty incomplete profile,
`ValueError` if `other_alternatives.remove(favourite)` fails. -/
def search_manipulative_ballot (rule : Rule) (incomplete_profile : Profile)
    (favourite_alternative : Nat) : Except PyErr (Option Ballot) :=
  match incomplete_profile with
  | [] => .error .indexError
  | b0 :: _ =>
    if favourite_alternative ∈ List.range b0.length then
      searchLoop rule incomplete_profile favourite_alternative
        ((List.range b0.length).erase favourite_alternative).length
        [favourite_alternative]
        ((List.range b0.length).erase favourite_alternative)
    else .error .valueError

/-- Python truthiness of the value returned by the search
(`if manipulative_ballot:`): `None` and the empty list are falsy. -/
def truthy (mb : Option Ballot) : Bool :=
  match mb with
  | none => false
  | some b => !b.isEmpty

/-- The scan of one voter's ballot in `Experiment.manipulable`.  In the
source the `break` on reaching a winning alternative is nested inside
`if self.debug:`, so without debug the scan continues past winners. -/
def voterScan (rule : Rule) (profile : Profile) (tw : List Nat) (debug : Bool)
    (truthful_ballot : Ballot) : List Nat → Except PyErr Bool
  | [] => .ok false
  | a :: rest =>
    if a ∈ tw then
      if debug then .ok false
      else voterScan rule profile tw debug truthful_ballot rest
    else
      match search_manipulative_ballot rule (profile.erase truthful_ballot) a with
      | .error e => .error e
      | .ok mb =>
        if truthy mb then .ok true
        else voterScan rule profile tw debug truthful_ballot rest

/-- The `for i_voter in range(len(profile))` loop of `Experiment.manipulable`. -/
def votersLoop (rule : Rule) (profile : Profile) (tw : List Nat) (debug : Bool) :
    List Ballot → Except PyErr (Option Bool)
  | [] => .ok none
  | b :: bs =>
    match voterScan rule profile tw debug b b with
    | .error e => .error e
    | .ok true => .ok (some true)
    | .ok false => votersLoop rule profile tw debug bs

/-- `Experiment.manipulable(scoring_rule, profile)`: `some true` models
`return True`; `none` models the implicit `None` returned when the loop
finishes without finding a manipulation. -/
def manipulable (scoring_rule : Rule) (profile : Profile) (debug : Bool) :
    Except PyErr (Option Bool) :=
  match winners scoring_rule profile with
  | .error e => .error e
  | .ok tw => votersLoop scoring_rule profile tw debug profile

/-- Like `voterScan`, but also records, in order, each
`(truthful_ballot, alternative)` pair for which
`search_manipulative_ballot` is invoked. -/
def voterScanCalls (rule : Rule) (profile : Profile) (tw : List Nat) (debug : Bool)
    (truthful_ballot : Ballot) : List Nat → Except PyErr (List (Ballot × Nat) × Bool)
  | [] => .ok ([], false)
  | a :: rest =>
    if a ∈ tw then
      if debug then .ok ([], false)
      else voterScanCalls rule profile tw debug truthful_ballot rest
    else
      match search_manipulative_ballot rule (profile.erase truthful_ballot) a with
      | .error e => .error e
      | .ok mb =>
        if truthy mb then .ok ([(truthful_ballot, a)], true)
        else
          match voterScanCalls rule profile tw debug truthful_ballot rest with
          | .error e => .error e
          | .ok (calls, r) => .ok ((truthful_ballot, a) :: calls, r)

/-- Like `votersLoop`, accumulating the search-call trace. -/
def votersLoopCalls (rule : Rule) (profile : Profile) (tw : List Nat) (debug : Bool) :
    List Ballot → Except PyErr (List (Ballot × Nat))
  | [] => .ok []
  | b :: bs =>
    match voterScanCalls rule profile tw debug b b with
    | .error e => .error e
    | .ok (calls, true) => .ok calls
    | .ok (calls, false) =>
      match votersLoopCalls rule profile tw debug bs with
      | .error e => .error e
      | .ok more => .ok (calls ++ more)

/-- The ordered trace of `search_manipulative_ballot` invocations made by
`Experiment.manipulable`, each tagged with the scanning voter's truthful
ballot and the target alternative. -/
def searchCalls (rule : Rule) (profile : Profile) (debug : Bool) :
    Except PyErr (List (Ballot × Nat)) :=
  match winners rule profile with
  | .error e => .error e
  | .ok tw => votersLoopCalls rule profile tw debug profile

/-- The pure accumulation underlying `plurality_scores`, defined for
profiles without empty ballots (where no `IndexError` fires). -/
def purePlur (p : Profile) : ScoreMap :=
  p.foldl (fun m b => m.bump (b.headD 0) 1) ScoreMap.empty

/-- One ballot's Borda contribution to alternative `a`. -/
def bordaContrib (b : Ballot) (a : Nat) : Int :=
  ((b.enum.filter (fun ia => decide (ia.2 = a))).map
    (fun ia => ((b.length - (ia.1 + 1) : Nat) : Int))).sum

/-- The number of index pairs `i ≤ j < n` at which ballot `w` shows `x`
at position `i` and `y` at position `j` — one ballot's contribution to
the Copeland table entry `table[x][y]`. -/
def bCount (n : Nat) (w : Ballot) (x y : Nat) : Nat :=
  (upairs n).countP (fun ij => decide (w.getD ij.1 0 = x) && decide (w.getD ij.2 0 = y))

/-- The sign of a pairwise-majority balance. -/
def signTerm (x : Int) : Int :=
  if x = 0 then 0 else if 0 < x then 1 else -1

/-- The contribution of the index pair `ij` to alternative `a`'s
Copeland score, given the table `t`. -/
def pairContrib (t : Nat → Nat → Nat) (ij : Nat × Nat) (a : Nat) : Int :=
  (if ij.1 = a then signTerm ((t ij.1 ij.2 : Int) - t ij.2 ij.1) else 0) +
  (if ij.2 = a then -signTerm ((t ij.1 ij.2 : Int) - t ij.2 ij.1) else 0)

/-- The validity precondition of the spec: a non-empty profile whose
ballots are all permutations of the alternative set `0, …, n-1`. -/
abbrev ValidProfile (n : Nat) (p : Profile) : Prop :=
  p ≠ [] ∧ ∀ b ∈ p, b.Perm (List.range n)

/-- The properties of a scoring rule used by the soundness proof of the
greedy search: it succeeds on valid profiles, its keys are alternatives,
the head of the last ballot is a key, and the score of an alternative
placed in the fixed prefix of the last ballot does not depend on the
arrangement of the alternatives below it. -/
structure RuleSpec (R : Rule) : Prop where
  ok_valid : ∀ n p, 0 < n → p ≠ [] → (∀ b ∈ p, b.Perm (List.range n)) →
    ∃ m, R p = .ok m
  keys_lt : ∀ n p m, (∀ b ∈ p, b.Perm (List.range n)) → R p = .ok m →
    ∀ a ∈ m.keys, a < n
  head_key : ∀ n inc fav rest m, (∀ b ∈ inc ++ [fav :: rest], b.Perm (List.range n)) →
    R (inc ++ [fav :: rest]) = .ok m → fav ∈ m.keys
  indep : ∀ n inc u t₁ t₂ m₁ m₂, (∀ b ∈ inc, b.Perm (List.range n)) → u ≠ [] →
    (u ++ t₁).Perm (List.range n) → t₁.Perm t₂ →
    R (inc ++ [u ++ t₁]) = .ok m₁ → R (inc ++ [u ++ t₂]) = .ok m₂ →
    ∀ d ∈ u, m₁.score d = m₂.score d

/-- The three scoring rules shipped with the program. -/
abbrev GoodRule (R : Rule) : Prop :=
  R = plurality_scores ∨ R = borda_scores ∨ R = copeland_scores

/-- Equality of score maps as Python dictionaries: same key set and same
stored values (insertion order does not enter `dict.__eq__`). -/
def ScoreMap.EquivD (m₁ m₂ : ScoreMap) : Prop :=
  (∀ a, a ∈ m₁.keys ↔ a ∈ m₂.keys) ∧ ∀ a, m₁.score a = m₂.score a

/-- Two scoring-rule outcomes that a caller cannot tell apart: the same
exception, or score maps equal as Python dictionaries. -/
def SameOutcome (x y : Except PyErr ScoreMap) : Prop :=
  (∃ e, x = .error e ∧ y = .error e) ∨
  ∃ m₁ m₂, x = .ok m₁ ∧ y = .ok m₂ ∧ m₁.EquivD m₂

/-- Spec-side notion: the number of ballots of `p` ranking `x` above `y`. -/
def aboveCount (p : Profile) (x y : Nat) : Nat :=
  p.countP (fun b => decide (b.indexOf x < b.indexOf y))

/-- Spec-side Copeland contribution of the pairwise majority contest of
`x` against `y`: `+1` if `x` is ranked above `y` on strictly more
ballots, `-1` if on strictly fewer, `0` on an exact tie. -/
def majorityTerm (p : Profile) (x y : Nat) : Int :=
  if aboveCount p y x < aboveCount p x y then 1
  else if aboveCount p x y < aboveCount p y x then -1
  else 0

/-! ## Concrete evaluations settling the value-level claims -/

/-- C1: the claim that `manipulable` stops scanning a voter's ballot at
the first alternative already in the truthful winner set holds only when
`debug` is on: in the source the `break` is nested inside
`if self.debug:`.  For the profile `[[0,1,2],[1,0,2]]` under Borda the
winner set is `[0, 1]`, so every voter's top-ranked alternative already
wins and, per the claim, no search call may happen; yet with the default
`debug = false` the code invokes the search for alternative `2` — ranked
below the winners on voter 0's ballot — and even returns `True`, while
with `debug = true` it breaks as the claim describes and returns `None`. -/
theorem manipulable_scans_past_winners_without_debug :
    winners borda_scores [[0,1,2],[1,0,2]] = .ok [0, 1] ∧
    searchCalls borda_scores [[0,1,2],[1,0,2]] false = .ok [([0,1,2], 2)] ∧
    searchCalls borda_scores [[0,1,2],[1,0,2]] true = .ok [] ∧
    manipulable borda_scores [[0,1,2],[1,0,2]] false = .ok (some true) ∧
    manipulable borda_scores [[0,1,2],[1,0,2]] true = .ok none := by
  refine ⟨?_, ?_, ?_, ?_, ?_⟩ <;> decide

/-- C2, counterexample: on the spec's concrete scenario-1 profile under
Borda, `manipulable` does not return `False` (nor the falsy `None`): it
returns `True` at the default `debug = false`. -/
theorem scenario1_not_false :
    manipulable borda_scores [[0,1,2,3],[0,1,2,3],[0,1,2,3],[1,0,2,3],[3,2,1,0]] false
      = .ok (some true) ∧
    manipulable borda_scores [[0,1,2,3],[0,1,2,3],[0,1,2,3],[1,0,2,3],[3,2,1,0]] false
      ≠ .ok (some false) ∧
    manipulable borda_scores [[0,1,2,3],[0,1,2,3],[0,1,2,3],[1,0,2,3],[3,2,1,0]] false
      ≠ .ok none := by
  refine ⟨?_, ?_, ?_⟩ <;> decide

/-- C2, amended: the truthful winner set of the scenario-1 profile is
indeed `{0}`, but `is_manipulable` returns `True`, with either debug
setting: a voter preferring `1` can submit a ballot that makes `1` a
tied co-winner (e.g. voter 3's `[1,2,0,3]` yields Borda scores 10-10 for
alternatives 0 and 1), and with `debug = false` voter 0 already triggers
a successful search for alternative 1 after scanning past winner 0. -/
theorem scenario1_manipulable :
    winners borda_scores [[0,1,2,3],[0,1,2,3],[0,1,2,3],[1,0,2,3],[3,2,1,0]] = .ok [0] ∧
    manipulable borda_scores [[0,1,2,3],[0,1,2,3],[0,1,2,3],[1,0,2,3],[3,2,1,0]] false
      = .ok (some true) ∧
    manipulable borda_scores [[0,1,2,3],[0,1,2,3],[0,1,2,3],[1,0,2,3],[3,2,1,0]] true
      = .ok (some true) ∧
    search_manipulative_ballot borda_scores [[0,1,2,3],[0,1,2,3],[0,1,2,3],[3,2,1,0]] 1
      = .ok (some [1,2,0,3]) ∧
    winners borda_scores [[0,1,2,3],[0,1,2,3],[0,1,2,3],[3,2,1,0],[1,2,0,3]] = .ok [0, 1] := by
  refine ⟨?_, ?_, ?_, ?_, ?_⟩ <;> decide

/-- C3: on the single-voter profile `[[0,1]]` (a valid profile: one
ballot, a permutation of the alternative set) `manipulable` with the
default `debug = false` scans past the winning top alternative, removes
the only ballot, and calls the search with an empty incomplete profile,
which raises `IndexError` at `incomplete_profile[0]`; with the intended
`break` (`debug = true`) it completes normally without any search call. -/
theorem single_voter_precondition_violation :
    manipulable borda_scores [[0,1]] false = .error .indexError ∧
    manipulable borda_scores [[0,1]] true = .ok none ∧
    searchCalls borda_scores [[0,1]] true = .ok [] ∧
    search_manipulative_ballot borda_scores [] 1 = .error .indexError := by
  refine ⟨?_, ?_, ?_, ?_⟩ <;> decide

/-- C5, counterexample: on `[[0,1],[0,1],[0,1]]` under plurality no voter
yields a manipulation, and `manipulable` returns `None` (the implicit
Python return), not the boolean value `False`. -/
theorem no_manipulation_returns_none :
    manipulable plurality_scores [[0,1],[0,1],[0,1]] false = .ok none ∧
    manipulable plurality_scores [[0,1],[0,1],[0,1]] false ≠ .ok (some false) := by
  refine ⟨?_, ?_⟩ <;> decide

/-- The voter loop only ever returns `True`, `None`, or an exception. -/
theorem votersLoop_cases (rule : Rule) (profile : Profile) (tw : List Nat) (debug : Bool)
    (bs : List Ballot) :
    votersLoop rule profile tw debug bs = .ok (some true) ∨
    votersLoop rule profile tw debug bs = .ok none ∨
    ∃ e, votersLoop rule profile tw debug bs = .error e := by
  induction bs with
  | nil => exact Or.inr (Or.inl rfl)
  | cons b rest ih =>
    cases h : voterScan rule profile tw debug b b with
    | error e => exact Or.inr (Or.inr ⟨e, by simp only [votersLoop, h]⟩)
    | ok r =>
      cases r with
      | true => exact Or.inl (by simp only [votersLoop, h])
      | false => simpa only [votersLoop, h] using ih

/-- C5, amended: `manipulable` never produces the boolean `False`: every
run either returns `True` (`some true`), falls through to `None`, or
propagates a Python exception. -/
theorem manipulable_never_boolean_false (rule : Rule) (profile : Profile) (debug : Bool) :
    manipulable rule profile debug = .ok (some true) ∨
    manipulable rule profile debug = .ok none ∨
    ∃ e, manipulable rule profile debug = .error e := by
  unfold manipulable
  cases winners rule profile with
  | error e => exact Or.inr (Or.inr ⟨e, rfl⟩)
  | ok tw => exact votersLoop_cases rule profile tw debug profile

/-- C6, counterexample: `winners` does not fail when ballots have
inconsistent lengths: under plurality on `[[0,1],[1]]` it happily
returns the list `[0, 1]`. -/
theorem winners_no_invalid_profile_error :
    winners plurality_scores [[0,1],[1]] = .ok [0, 1] := by decide

/-- C6, amended: on the empty profile `winners` does fail, but with a
generic built-in error — `ValueError` from `max()` of an empty sequence
for plurality and Borda, `IndexError` from `profile[0]` for Copeland —
and there is no dedicated "InvalidProfile" error; ballots of mismatched
lengths are not detected (plurality above succeeds). -/
theorem winners_empty_profile_generic_errors :
    winners plurality_scores [] = .error .valueError ∧
    winners borda_scores [] = .error .valueError ∧
    winners copeland_scores [] = .error .indexError ∧
    winners plurality_scores [[0,1],[1]] = .ok [0, 1] := by
  refine ⟨?_, ?_, ?_, ?_⟩ <;> decide

/-! ## Generic lemmas about score-map accumulation -/

theorem bump_score (m : ScoreMap) (a : Nat) (v : Int) (x : Nat) :
    (m.bump a v).score x = if x = a then m.score x + v else m.score x := rfl

theorem bump_keys_mem (m : ScoreMap) (a : Nat) (v : Int) (x : Nat) :
    x ∈ (m.bump a v).keys ↔ x ∈ m.keys ∨ x = a := by
  simp only [ScoreMap.bump]
  by_cases h : a ∈ m.keys
  · simp only [if_pos h]
    constructor
    · exact Or.inl
    · rintro (hx | rfl) <;> [exact hx; exact h]
  · simp [if_neg h, or_comm]

theorem bump_keys_nodup (m : ScoreMap) (a : Nat) (v : Int) (h : m.keys.Nodup) :
    (m.bump a v).keys.Nodup := by
  simp only [ScoreMap.bump]
  by_cases ha : a ∈ m.keys
  · simpa [if_pos ha]
  · simp only [if_neg ha]
    exact List.Nodup.append h (List.nodup_singleton a) (by simpa using ha)

theorem foldl_score_add {ι : Type} (step : ScoreMap → ι → ScoreMap) (c : ι → Nat → Int)
    (h : ∀ m x a, (step m x).score a = m.score a + c x a) :
    ∀ (l : List ι) (m : ScoreMap) (a : Nat),
      (l.foldl step m).score a = m.score a + (l.map (fun x => c x a)).sum := by
  intro l
  induction l with
  | nil => simp
  | cons x xs ih =>
    intro m a
    simp only [List.foldl_cons, List.map_cons, List.sum_cons, ih (step m x) a, h m x a]
    ring

theorem foldl_keys_iff {ι : Type} (step : ScoreMap → ι → ScoreMap) (K : ι → Nat → Prop)
    (h : ∀ m x a, a ∈ (step m x).keys ↔ a ∈ m.keys ∨ K x a) :
    ∀ (l : List ι) (m : ScoreMap) (a : Nat),
      a ∈ (l.foldl step m).keys ↔ a ∈ m.keys ∨ ∃ x ∈ l, K x a := by
  intro l
  induction l with
  | nil => simp
  | cons x xs ih =>
    intro m a
    rw [List.foldl_cons, ih (step m x) a, h m x a]
    constructor
    · rintro ((hm | hk) | ⟨y, hy, hky⟩)
      · exact Or.inl hm
      · exact Or.inr ⟨x, List.mem_cons_self x xs, hk⟩
      · exact Or.inr ⟨y, List.mem_cons_of_mem x hy, hky⟩
    · rintro (hm | ⟨y, hy, hky⟩)
      · exact Or.inl (Or.inl hm)
      · rcases List.mem_cons.mp hy with rfl | hy'
        · exact Or.inl (Or.inr hky)
        · exact Or.inr ⟨y, hy', hky⟩

theorem foldl_keys_nodup {ι : Type} (step : ScoreMap → ι → ScoreMap)
    (h : ∀ m x, m.keys.Nodup → (step m x).keys.Nodup) :
    ∀ (l : List ι) (m : ScoreMap), m.keys.Nodup → (l.foldl step m).keys.Nodup := by
  intro l
  induction l with
  | nil => exact fun m hm => hm
  | cons x xs ih => exact fun m hm => ih (step m x) (h m x hm)

theorem sum_map_ite_one {ι : Type} (l : List ι) (q : ι → Prop) [DecidablePred q] :
    (l.map (fun x => if q x then (1 : Int) else 0)).sum
      = (l.countP (fun x => decide (q x)) : Nat) := by
  induction l with
  | nil => simp
  | cons x xs ih =>
    by_cases hq : q x <;>
      simp [List.countP_cons, hq, ih] <;> ring

theorem sum_map_ite_filter {ι : Type} (l : List ι) (q : ι → Prop) [DecidablePred q]
    (f : ι → Int) :
    (l.map (fun x => if q x then f x else 0)).sum
      = ((l.filter (fun x => decide (q x))).map f).sum := by
  induction l with
  | nil => simp
  | cons x xs ih =>
    by_cases hq : q x <;> simp [List.filter_cons, hq, ih]

/-! ## Characterization of `plurality_scores` -/

theorem plurality_foldlM_ok (p : Profile) :
    ∀ m0 : ScoreMap, (∀ b ∈ p, b ≠ []) →
      p.foldlM plurStep m0 = .ok (p.foldl (fun m b => m.bump (b.headD 0) 1) m0) := by
  induction p with
  | nil => intro m0 _; rfl
  | cons b bs ih =>
    intro m0 h
    have hb : b ≠ [] := h b (List.mem_cons_self b bs)
    match b, hb, h with
    | a :: t, _, h =>
      simp only [List.foldlM_cons, plurStep, List.foldl_cons]
      rw [show (Except.ok (ε := PyErr) (m0.bump a 1) >>= fun b' =>
            List.foldlM plurStep b' bs) = List.foldlM plurStep (m0.bump a 1) bs from rfl]
      exact ih (m0.bump a 1) (fun x hx => h x (List.mem_cons_of_mem _ hx))

theorem plurality_ok_of_valid (p : Profile) (h : ∀ b ∈ p, b ≠ []) :
    plurality_scores p = .ok (purePlur p) :=
  plurality_foldlM_ok p ScoreMap.empty h

theorem plurality_ok_elim (p : Profile) (m : ScoreMap) (h : plurality_scores p = .ok m) :
    (∀ b ∈ p, b ≠ []) ∧ m = purePlur p := by
  have key : ∀ (q : Profile) (m0 m' : ScoreMap), q.foldlM plurStep m0 = .ok m' →
      (∀ b ∈ q, b ≠ []) ∧ m' = q.foldl (fun m b => m.bump (b.headD 0) 1) m0 := by
    intro q
    induction q with
    | nil =>
      intro m0 m' h'
      exact ⟨by simp, by simpa using (Except.ok.inj h').symm⟩
    | cons b bs ih =>
      intro m0 m' h'
      match b, h' with
      | [], h' =>
        exfalso
        simp only [List.foldlM_cons, plurStep] at h'
        exact Except.noConfusion h'
      | a :: t, h' =>
        simp only [List.foldlM_cons, plurStep] at h'
        rw [show (Except.ok (ε := PyErr) (m0.bump a 1) >>= fun b' =>
              List.foldlM plurStep b' bs) = List.foldlM plurStep (m0.bump a 1) bs from rfl] at h'
        obtain ⟨h1, h2⟩ := ih (m0.bump a 1) m' h'
        refine ⟨?_, by simpa using h2⟩
        intro x hx
        rcases List.mem_cons.mp hx with rfl | hx'
        · exact List.cons_ne_nil a t
        · exact h1 x hx'
  obtain ⟨h1, h2⟩ := key p ScoreMap.empty m h
  exact ⟨h1, h2⟩

theorem purePlur_score (p : Profile) (a : Nat) :
    (purePlur p).score a = (p.countP (fun b => decide (b.headD 0 = a)) : Nat) := by
  have step : ∀ (m : ScoreMap) (b : Ballot) (x : Nat),
      (m.bump (b.headD 0) 1).score x
        = m.score x + (fun (b : Ballot) (x : Nat) => if b.headD 0 = x then (1 : Int) else 0) b x := by
    intro m b x
    show (m.bump (b.headD 0) 1).score x = m.score x + if b.headD 0 = x then (1 : Int) else 0
    rw [bump_score]
    by_cases hx : b.headD 0 = x
    · rw [if_pos hx, if_pos hx.symm]
    · rw [if_neg (fun h => hx h.symm), if_neg hx, add_zero]
  have := foldl_score_add (fun m b => m.bump (b.headD 0) 1)
    (fun (b : Ballot) (x : Nat) => if b.headD 0 = x then (1 : Int) else 0) step p ScoreMap.empty a
  unfold purePlur
  rw [this, sum_map_ite_one p (fun b => b.headD 0 = a)]
  show (0 : Int) + _ = _
  rw [zero_add]

theorem purePlur_keys (p : Profile) (a : Nat) :
    a ∈ (purePlur p).keys ↔ ∃ b ∈ p, b.headD 0 = a := by
  have step : ∀ (m : ScoreMap) (b : Ballot) (x : Nat),
      x ∈ (m.bump (b.headD 0) 1).keys ↔ x ∈ m.keys ∨ (fun (b : Ballot) (x : Nat) => x = b.headD 0) b x := by
    intro m b x
    show x ∈ (m.bump (b.headD 0) 1).keys ↔ x ∈ m.keys ∨ x = b.headD 0
    exact bump_keys_mem m (b.headD 0) 1 x
  have := foldl_keys_iff (fun m b => m.bump (b.headD 0) 1)
    (fun (b : Ballot) (x : Nat) => x = b.headD 0) step p ScoreMap.empty a
  unfold purePlur
  rw [this]
  have hemp : a ∈ ScoreMap.empty.keys ↔ False := by simp [ScoreMap.empty]
  rw [hemp, false_or]
  constructor
  · rintro ⟨b, hb, rfl⟩; exact ⟨b, hb, rfl⟩
  · rintro ⟨b, hb, rfl⟩; exact ⟨b, hb, rfl⟩

/-! ## Characterization of `borda_scores` -/

theorem bordaBallot_score (m : ScoreMap) (b : Ballot) (a : Nat) :
    (bordaBallot m b).score a = m.score a + bordaContrib b a := by
  have step : ∀ (m : ScoreMap) (ia : Nat × Nat) (x : Nat),
      (m.bump ia.2 ((b.length - (ia.1 + 1) : Nat) : Int)).score x
        = m.score x + (fun (ia : Nat × Nat) (x : Nat) =>
            if ia.2 = x then ((b.length - (ia.1 + 1) : Nat) : Int) else 0) ia x := by
    intro m ia x
    show _ = m.score x + if ia.2 = x then ((b.length - (ia.1 + 1) : Nat) : Int) else 0
    rw [bump_score]
    by_cases hx : ia.2 = x
    · rw [if_pos hx, if_pos hx.symm]
    · rw [if_neg (fun h => hx h.symm), if_neg hx, add_zero]
  have := foldl_score_add (fun m ia => m.bump ia.2 ((b.length - (ia.1 + 1) : Nat) : Int))
    (fun (ia : Nat × Nat) (x : Nat) =>
      if ia.2 = x then ((b.length - (ia.1 + 1) : Nat) : Int) else 0) step b.enum m a
  rw [bordaBallot, this, bordaContrib]
  rw [sum_map_ite_filter b.enum (fun ia => ia.2 = a)]

theorem borda_score (p : Profile) (a : Nat) :
    ((p.foldl bordaBallot ScoreMap.empty)).score a
      = (p.map (fun b => bordaContrib b a)).sum := by
  have := foldl_score_add bordaBallot (fun b a => bordaContrib b a)
    (fun m b x => bordaBallot_score m b x) p ScoreMap.empty a
  rw [this]
  show (0 : Int) + _ = _
  rw [zero_add]

theorem bordaBallot_keys (m : ScoreMap) (b : Ballot) (a : Nat) :
    a ∈ (bordaBallot m b).keys ↔ a ∈ m.keys ∨ a ∈ b := by
  have step : ∀ (m : ScoreMap) (ia : Nat × Nat) (x : Nat),
      x ∈ (m.bump ia.2 ((b.length - (ia.1 + 1) : Nat) : Int)).keys
        ↔ x ∈ m.keys ∨ (fun (ia : Nat × Nat) (x : Nat) => x = ia.2) ia x := by
    intro m ia x
    show _ ↔ x ∈ m.keys ∨ x = ia.2
    exact bump_keys_mem m ia.2 _ x
  have := foldl_keys_iff (fun m ia => m.bump ia.2 ((b.length - (ia.1 + 1) : Nat) : Int))
    (fun (ia : Nat × Nat) (x : Nat) => x = ia.2) step b.enum m a
  rw [bordaBallot, this]
  have : (∃ x ∈ b.enum, a = x.2) ↔ a ∈ b := by
    constructor
    · rintro ⟨x, hx, rfl⟩
      have : x.2 ∈ b.enum.map Prod.snd := List.mem_map_of_mem Prod.snd hx
      rwa [List.enum_map_snd] at this
    · intro ha
      rw [← List.enum_map_snd b] at ha
      obtain ⟨x, hx, hxa⟩ := List.mem_map.mp ha
      exact ⟨x, hx, hxa.symm⟩
  rw [this]

theorem borda_keys (p : Profile) (a : Nat) :
    a ∈ ((p.foldl bordaBallot ScoreMap.empty)).keys ↔ ∃ b ∈ p, a ∈ b := by
  have := foldl_keys_iff bordaBallot (fun (b : Ballot) (a : Nat) => a ∈ b)
    (fun m b x => bordaBallot_keys m b x) p ScoreMap.empty a
  rw [this]
  have hemp : a ∈ ScoreMap.empty.keys ↔ False := by simp [ScoreMap.empty]
  rw [hemp, false_or]

/-! ## Characterization of `copeland_scores` -/

theorem mem_upairs (n : Nat) (ij : Nat × Nat) :
    ij ∈ upairs n ↔ ij.1 ≤ ij.2 ∧ ij.2 < n := by
  unfold upairs
  rw [List.mem_flatMap]
  constructor
  · rintro ⟨i, hi, hij⟩
    obtain ⟨j, hj, rfl⟩ := List.mem_map.mp hij
    have hi' : i < n := List.mem_range.mp hi
    have hj' : i ≤ j ∧ j < i + (n - i) := List.mem_range'_1.mp hj
    exact ⟨hj'.1, by omega⟩
  · rintro ⟨h1, h2⟩
    refine ⟨ij.1, List.mem_range.mpr (by omega), List.mem_map.mpr ⟨ij.2, ?_, rfl⟩⟩
    exact List.mem_range'_1.mpr ⟨h1, by omega⟩

theorem nodup_upairs (n : Nat) : (upairs n).Nodup := by
  unfold upairs
  rw [List.flatMap_def, List.nodup_flatten]
  constructor
  · intro l hl
    obtain ⟨i, _, rfl⟩ := List.mem_map.mp hl
    exact (List.nodup_range' _ _).map (fun a b h => (Prod.mk.injEq _ _ _ _ ▸ h).2)
  · have : List.Pairwise (fun i j : Nat => i ≠ j) (List.range n) :=
      List.nodup_range n
    refine List.Pairwise.map _ ?_ this
    intro i j hij
    intro x hx hy
    obtain ⟨a, _, rfl⟩ := List.mem_map.mp hx
    obtain ⟨b, _, hba⟩ := List.mem_map.mp hy
    exact hij (congrArg Prod.fst hba.symm)

theorem bump2_val (t : Nat → Nat → Nat) (a b x y : Nat) :
    bump2 t a b x y = t x y + (if x = a ∧ y = b then 1 else 0) := by
  unfold bump2
  by_cases hx : x = a
  · by_cases hy : y = b
    · simp [hx, hy]
    · simp [hx, hy]
  · simp [hx]

theorem foldl_table_add {ι : Type} (step : (Nat → Nat → Nat) → ι → (Nat → Nat → Nat))
    (c : ι → Nat → Nat → Nat)
    (h : ∀ t x a b, (step t x) a b = t a b + c x a b) :
    ∀ (l : List ι) (t : Nat → Nat → Nat) (a b : Nat),
      (l.foldl step t) a b = t a b + (l.map (fun x => c x a b)).sum := by
  intro l
  induction l with
  | nil => simp
  | cons x xs ih =>
    intro t a b
    simp only [List.foldl_cons, List.map_cons, List.sum_cons, ih (step t x) a b, h t x a b]
    omega

theorem sum_map_ite_one_nat {ι : Type} (l : List ι) (q : ι → Prop) [DecidablePred q] :
    (l.map (fun x => if q x then (1 : Nat) else 0)).sum = l.countP (fun x => decide (q x)) := by
  induction l with
  | nil => simp
  | cons x xs ih =>
    by_cases hq : q x
    · simp [List.countP_cons, hq, ih]
      omega
    · simp [List.countP_cons, hq, ih]

theorem ballotTable_val (n : Nat) (t : Nat → Nat → Nat) (w : Ballot) (x y : Nat) :
    ballotTable n t w x y = t x y + bCount n w x y := by
  have step : ∀ (t : Nat → Nat → Nat) (ij : Nat × Nat) (a b : Nat),
      bump2 t (w.getD ij.1 0) (w.getD ij.2 0) a b
        = t a b + (fun (ij : Nat × Nat) (a b : Nat) =>
            if a = w.getD ij.1 0 ∧ b = w.getD ij.2 0 then 1 else 0) ij a b := by
    intro t ij a b
    exact bump2_val t _ _ a b
  have := foldl_table_add (fun t ij => bump2 t (w.getD ij.1 0) (w.getD ij.2 0))
    (fun (ij : Nat × Nat) (a b : Nat) =>
      if a = w.getD ij.1 0 ∧ b = w.getD ij.2 0 then 1 else 0) step (upairs n) t x y
  rw [ballotTable, this, bCount]
  congr 1
  rw [sum_map_ite_one_nat (upairs n) (fun ij => x = w.getD ij.1 0 ∧ y = w.getD ij.2 0)]
  refine List.countP_congr ?_
  intro ij _
  simp only [decide_eq_true_eq, Bool.and_eq_true]
  constructor
  · rintro ⟨h1, h2⟩; exact ⟨h1.symm, h2.symm⟩
  · rintro ⟨h1, h2⟩; exact ⟨h1.symm, h2.symm⟩

theorem buildTable_val (n : Nat) (p : Profile) (x y : Nat) :
    buildTable n p x y = (p.map (fun w => bCount n w x y)).sum := by
  have := foldl_table_add (ballotTable n) (fun w x y => bCount n w x y)
    (fun t w a b => ballotTable_val n t w a b) p (fun _ _ => 0) x y
  rw [buildTable, this, Nat.zero_add]

theorem bump_bump_score (m : ScoreMap) (i j : Nat) (v₁ v₂ : Int) (a : Nat) :
    ((m.bump i v₁).bump j v₂).score a
      = m.score a + ((if i = a then v₁ else 0) + (if j = a then v₂ else 0)) := by
  rw [bump_score, bump_score]
  by_cases h1 : a = j
  · by_cases h2 : a = i
    · rw [if_pos h1, if_pos h2, if_pos h2.symm, if_pos h1.symm]; ring
    · rw [if_pos h1, if_neg h2, if_neg (fun h => h2 h.symm), if_pos h1.symm]; ring
  · by_cases h2 : a = i
    · rw [if_neg h1, if_pos h2, if_pos h2.symm, if_neg (fun h => h1 h.symm)]; ring
    · rw [if_neg h1, if_neg h2, if_neg (fun h => h2 h.symm), if_neg (fun h => h1 h.symm)]; ring

theorem copelandStep_score (t : Nat → Nat → Nat) (m : ScoreMap) (ij : Nat × Nat) (a : Nat) :
    (copelandStep t m ij).score a = m.score a + pairContrib t ij a := by
  simp only [copelandStep, pairContrib, signTerm]
  by_cases h0 : ((t ij.1 ij.2 : Int) - (t ij.2 ij.1 : Int)) = 0
  · rw [if_pos h0, if_pos h0, bump_bump_score]
    simp
  · rw [if_neg h0, if_neg h0]
    by_cases hp : (0 : Int) < (t ij.1 ij.2 : Int) - (t ij.2 ij.1 : Int)
    · rw [if_pos hp, if_pos hp, bump_bump_score]
    · rw [if_neg hp, if_neg hp, bump_bump_score]
      simp

theorem copelandStep_keys (t : Nat → Nat → Nat) (m : ScoreMap) (ij : Nat × Nat) (a : Nat) :
    a ∈ (copelandStep t m ij).keys ↔ a ∈ m.keys ∨ (a = ij.1 ∨ a = ij.2) := by
  simp only [copelandStep]
  by_cases h0 : ((t ij.1 ij.2 : Int) - (t ij.2 ij.1 : Int)) = 0
  · rw [if_pos h0, bump_keys_mem, bump_keys_mem]
    tauto
  · rw [if_neg h0]
    by_cases hp : (0 : Int) < (t ij.1 ij.2 : Int) - (t ij.2 ij.1 : Int)
    · rw [if_pos hp, bump_keys_mem, bump_keys_mem]; tauto
    · rw [if_neg hp, bump_keys_mem, bump_keys_mem]; tauto

theorem copelandFold_score (t : Nat → Nat → Nat) (n : Nat) (a : Nat) :
    (((upairs n).foldl (copelandStep t) ScoreMap.empty)).score a
      = ((upairs n).map (fun ij => pairContrib t ij a)).sum := by
  have := foldl_score_add (copelandStep t) (fun ij a => pairContrib t ij a)
    (fun m ij x => copelandStep_score t m ij x) (upairs n) ScoreMap.empty a
  rw [this]
  show (0 : Int) + _ = _
  rw [zero_add]

theorem copelandFold_keys (t : Nat → Nat → Nat) (n : Nat) (a : Nat) :
    a ∈ (((upairs n).foldl (copelandStep t) ScoreMap.empty)).keys ↔ a < n := by
  have := foldl_keys_iff (copelandStep t) (fun (ij : Nat × Nat) (a : Nat) => a = ij.1 ∨ a = ij.2)
    (fun m ij x => copelandStep_keys t m ij x) (upairs n) ScoreMap.empty a
  rw [this]
  have hemp : a ∈ ScoreMap.empty.keys ↔ False := by simp [ScoreMap.empty]
  rw [hemp, false_or]
  constructor
  · rintro ⟨ij, hij, h | h⟩
    · obtain ⟨h1, h2⟩ := (mem_upairs n ij).mp hij
      omega
    · obtain ⟨h1, h2⟩ := (mem_upairs n ij).mp hij
      omega
  · intro ha
    exact ⟨(a, a), (mem_upairs n (a, a)).mpr ⟨le_refl a, ha⟩, Or.inl rfl⟩

theorem copeland_ok_of_valid (p : Profile) (b0 : Ballot) (rest : Profile)
    (hp : p = b0 :: rest) (h : ∀ b ∈ p, b.length = b0.length) :
    copeland_scores p
      = .ok ((upairs b0.length).foldl (copelandStep (buildTable b0.length p)) ScoreMap.empty) := by
  subst hp
  simp only [copeland_scores]
  split
  · rename_i hcond
    exfalso
    rw [List.any_eq_true] at hcond
    obtain ⟨b, hb, hlt⟩ := hcond
    rw [decide_eq_true_eq] at hlt
    rw [h b hb] at hlt
    exact lt_irrefl _ hlt
  · rfl

theorem copeland_ok_elim (p : Profile) (m : ScoreMap) (h : copeland_scores p = .ok m) :
    ∃ b0 rest, p = b0 :: rest ∧ (∀ b ∈ p, b0.length ≤ b.length) ∧
      m = (upairs b0.length).foldl (copelandStep (buildTable b0.length p)) ScoreMap.empty := by
  match p, h with
  | b0 :: rest, h =>
    simp only [copeland_scores] at h
    refine ⟨b0, rest, rfl, ?_, ?_⟩
    · intro b hb
      by_contra hlt
      rw [if_pos] at h
      · exact Except.noConfusion h
      · rw [List.any_eq_true]
        refine ⟨b, hb, ?_⟩
        rw [decide_eq_true_eq]
        omega
    · split at h
      · exact Except.noConfusion h
      · exact (Except.ok.inj h).symm

/-! ## The Copeland table entry of one valid ballot -/

theorem countP_eq_zero_of_not_mem {α : Type} [DecidableEq α] (l : List α) (v : α)
    (hv : v ∉ l) : l.countP (fun x => decide (x = v)) = 0 := by
  induction l with
  | nil => rfl
  | cons x xs ih =>
    rw [List.countP_cons]
    have hx : x ≠ v := fun h => hv (h ▸ List.mem_cons_self x xs)
    have hxs : v ∉ xs := fun h => hv (List.mem_cons_of_mem x h)
    simp [hx, ih hxs]

theorem countP_eq_one_of_nodup_mem {α : Type} [DecidableEq α] (l : List α)
    (hnd : l.Nodup) (v : α) (hv : v ∈ l) : l.countP (fun x => decide (x = v)) = 1 := by
  induction l with
  | nil => exact absurd hv (List.not_mem_nil v)
  | cons x xs ih =>
    rw [List.countP_cons]
    rcases List.mem_cons.mp hv with rfl | hv'
    · have hxs : v ∉ xs := (List.nodup_cons.mp hnd).1
      simp [countP_eq_zero_of_not_mem xs v hxs]
    · have hx : x ≠ v := fun h => (List.nodup_cons.mp hnd).1 (h ▸ hv')
      simp [hx, ih (List.nodup_cons.mp hnd).2 hv']

theorem getElem_eq_iff_indexOf (w : List Nat) (hnd : w.Nodup) (a : Nat) (ha : a ∈ w)
    (i : Nat) (hi : i < w.length) : w[i] = a ↔ i = w.indexOf a := by
  constructor
  · intro h
    have := List.get_indexOf hnd ⟨i, hi⟩
    simp only [List.get_eq_getElem] at this
    rw [h] at this
    exact this.symm
  · intro h
    subst h
    have hlt : w.indexOf a < w.length := List.indexOf_lt_length.mpr ha
    have := List.indexOf_get hlt
    simpa using this

theorem bCount_char (n : Nat) (w : Ballot) (a b : Nat) (hnd : w.Nodup) (hlen : w.length = n)
    (ha : a ∈ w) (hb : b ∈ w) :
    bCount n w a b = if w.indexOf a ≤ w.indexOf b then 1 else 0 := by
  unfold bCount
  have hia : w.indexOf a < n := hlen ▸ List.indexOf_lt_length.mpr ha
  have hib : w.indexOf b < n := hlen ▸ List.indexOf_lt_length.mpr hb
  have hcong : (upairs n).countP
        (fun ij => decide (w.getD ij.1 0 = a) && decide (w.getD ij.2 0 = b))
      = (upairs n).countP (fun ij => decide (ij = (w.indexOf a, w.indexOf b))) := by
    refine List.countP_congr ?_
    intro ij hij
    obtain ⟨h1, h2⟩ := (mem_upairs n ij).mp hij
    have hij1 : ij.1 < w.length := by omega
    have hij2 : ij.2 < w.length := by omega
    rw [Bool.and_eq_true, decide_eq_true_eq, decide_eq_true_eq, decide_eq_true_eq]
    rw [List.getD_eq_getElem w 0 hij1, List.getD_eq_getElem w 0 hij2]
    rw [getElem_eq_iff_indexOf w hnd a ha ij.1 hij1,
        getElem_eq_iff_indexOf w hnd b hb ij.2 hij2]
    rw [Prod.ext_iff]
  rw [hcong]
  by_cases hle : w.indexOf a ≤ w.indexOf b
  · rw [if_pos hle]
    exact countP_eq_one_of_nodup_mem (upairs n) (nodup_upairs n) _
      ((mem_upairs n _).mpr ⟨hle, hib⟩)
  · rw [if_neg hle]
    refine countP_eq_zero_of_not_mem (upairs n) _ ?_
    intro hmem
    exact hle ((mem_upairs n _).mp hmem).1

/-! ## Facts about valid ballots and ballot prefixes -/

theorem valid_ballot_nodup (b : Ballot) (n : Nat) (h : b.Perm (List.range n)) : b.Nodup :=
  h.nodup_iff.mpr (List.nodup_range n)

theorem valid_ballot_length (b : Ballot) (n : Nat) (h : b.Perm (List.range n)) :
    b.length = n := by
  rw [h.length_eq, List.length_range]

theorem valid_ballot_mem (b : Ballot) (n : Nat) (h : b.Perm (List.range n)) (a : Nat) :
    a ∈ b ↔ a < n := by
  rw [h.mem_iff, List.mem_range]

theorem headD_append_of_ne_nil (u t : List Nat) (h : u ≠ []) :
    (u ++ t).headD 0 = u.headD 0 := by
  match u, h with
  | x :: u', _ => rfl

theorem headD_mem_of_ne_nil (u : List Nat) (h : u ≠ []) : u.headD 0 ∈ u := by
  match u, h with
  | x :: u', _ => exact List.mem_cons_self x u'

theorem indexOf_ge_of_not_mem_left (u t : List Nat) (x : Nat) (hx : x ∈ u ++ t)
    (hxu : x ∉ u) : u.length ≤ (u ++ t).indexOf x := by
  by_contra hlt
  push_neg at hlt
  have hxlen : (u ++ t).indexOf x < (u ++ t).length := List.indexOf_lt_length.mpr hx
  have hget : (u ++ t)[(u ++ t).indexOf x] = x := by
    have := List.indexOf_get hxlen
    simpa using this
  rw [List.getElem_append_left hlt] at hget
  exact hxu (hget ▸ List.getElem_mem hlt)

theorem not_mem_right_of_nodup_append (u t : List Nat) (h : (u ++ t).Nodup) (d : Nat)
    (hd : d ∈ u) : d ∉ t :=
  fun hdt => (List.disjoint_of_nodup_append h) hd hdt

/-! ## The plurality rule satisfies the search invariants -/

theorem plurality_spec : RuleSpec plurality_scores := by
  constructor
  · -- ok_valid
    intro n p hn hne hval
    refine ⟨purePlur p, plurality_ok_of_valid p ?_⟩
    intro b hb
    have := valid_ballot_length b n (hval b hb)
    intro hnil
    rw [hnil] at this
    simp at this
    omega
  · -- keys_lt
    intro n p m hval hok a ha
    obtain ⟨hne, hm⟩ := plurality_ok_elim p m hok
    rw [hm, purePlur_keys] at ha
    obtain ⟨b, hb, hhead⟩ := ha
    have hmem : b.headD 0 ∈ b := headD_mem_of_ne_nil b (hne b hb)
    rw [hhead] at hmem
    exact (valid_ballot_mem b n (hval b hb) a).mp hmem
  · -- head_key
    intro n inc fav rest m hval hok
    obtain ⟨hne, hm⟩ := plurality_ok_elim _ m hok
    rw [hm, purePlur_keys]
    exact ⟨fav :: rest, List.mem_append_right inc (List.mem_cons_self _ _), rfl⟩
  · -- indep
    intro n inc u t₁ t₂ m₁ m₂ hinc hu hperm1 hperm12 h1 h2 d hd
    obtain ⟨_, hm₁⟩ := plurality_ok_elim _ m₁ h1
    obtain ⟨_, hm₂⟩ := plurality_ok_elim _ m₂ h2
    rw [hm₁, hm₂, purePlur_score, purePlur_score]
    congr 1
    rw [List.countP_append, List.countP_append]
    congr 1
    simp only [List.countP_cons, List.countP_nil]
    congr 1
    rw [headD_append_of_ne_nil u t₁ hu, headD_append_of_ne_nil u t₂ hu]

/-! ## The Borda rule satisfies the search invariants -/

theorem bordaContrib_prefix (u t₁ t₂ : List Nat) (d : Nat) (hd : d ∈ u)
    (hnd : (u ++ t₁).Nodup) (hperm : t₁.Perm t₂) :
    bordaContrib (u ++ t₁) d = bordaContrib (u ++ t₂) d := by
  have hdt₁ : d ∉ t₁ := not_mem_right_of_nodup_append u t₁ hnd d hd
  have hdt₂ : d ∉ t₂ := fun h => hdt₁ (hperm.mem_iff.mpr h)
  have hlen : (u ++ t₂).length = (u ++ t₁).length := by
    rw [List.length_append, List.length_append, hperm.length_eq]
  have hfil : ∀ (t : List Nat), d ∉ t →
      ((u ++ t).enum.filter (fun ia => decide (ia.2 = d)))
        = u.enum.filter (fun ia => decide (ia.2 = d)) := by
    intro t hdt
    rw [List.enum_append, List.filter_append]
    have : (t.enumFrom u.length).filter (fun ia => decide (ia.2 = d)) = [] := by
      rw [List.filter_eq_nil_iff]
      intro ia hia
      simp only [decide_eq_true_eq]
      intro hia2
      obtain ⟨i, x⟩ := ia
      obtain ⟨_, _, hxe⟩ := List.mem_enumFrom hia
      simp only at hia2
      apply hdt
      rw [← hia2, hxe]
      exact List.getElem_mem _
    rw [this, List.append_nil]
  unfold bordaContrib
  rw [hfil t₁ hdt₁, hfil t₂ hdt₂, hlen]

theorem borda_spec : RuleSpec borda_scores := by
  constructor
  · -- ok_valid
    intro n p _ _ _
    exact ⟨_, rfl⟩
  · -- keys_lt
    intro n p m hval hok a ha
    have hm : m = p.foldl bordaBallot ScoreMap.empty := (Except.ok.inj hok).symm
    rw [hm, borda_keys] at ha
    obtain ⟨b, hb, hab⟩ := ha
    exact (valid_ballot_mem b n (hval b hb) a).mp hab
  · -- head_key
    intro n inc fav rest m hval hok
    have hm : m = (inc ++ [fav :: rest]).foldl bordaBallot ScoreMap.empty :=
      (Except.ok.inj hok).symm
    rw [hm, borda_keys]
    exact ⟨fav :: rest, List.mem_append_right inc (List.mem_cons_self _ _),
      List.mem_cons_self _ _⟩
  · -- indep
    intro n inc u t₁ t₂ m₁ m₂ hinc hu hperm1 hperm12 h1 h2 d hd
    have hm₁ : m₁ = (inc ++ [u ++ t₁]).foldl bordaBallot ScoreMap.empty :=
      (Except.ok.inj h1).symm
    have hm₂ : m₂ = (inc ++ [u ++ t₂]).foldl bordaBallot ScoreMap.empty :=
      (Except.ok.inj h2).symm
    rw [hm₁, hm₂, borda_score, borda_score]
    rw [List.map_append, List.map_append, List.sum_append, List.sum_append]
    congr 1
    simp only [List.map_cons, List.map_nil, List.sum_cons, List.sum_nil]
    congr 1
    exact bordaContrib_prefix u t₁ t₂ d hd
      (hperm1.nodup_iff.mpr (List.nodup_range n)) hperm12

/-! ## The Copeland rule satisfies the search invariants -/

theorem buildTable_append_last (n : Nat) (inc : Profile) (w : Ballot) (x y : Nat) :
    buildTable n (inc ++ [w]) x y = buildTable n inc x y + bCount n w x y := by
  rw [buildTable_val, buildTable_val, List.map_append, List.sum_append]
  simp

theorem copeland_indep_tables (n : Nat) (u t₁ t₂ : List Nat) (d x : Nat)
    (hd : d ∈ u) (hperm1 : (u ++ t₁).Perm (List.range n)) (hperm12 : t₁.Perm t₂)
    (hx : x < n) :
    bCount n (u ++ t₁) d x = bCount n (u ++ t₂) d x ∧
    bCount n (u ++ t₁) x d = bCount n (u ++ t₂) x d := by
  have hperm2 : (u ++ t₂).Perm (List.range n) :=
    ((List.Perm.append_left u hperm12).symm).trans hperm1
  have hnd₁ := valid_ballot_nodup _ n hperm1
  have hnd₂ := valid_ballot_nodup _ n hperm2
  have hlen₁ := valid_ballot_length _ n hperm1
  have hlen₂ := valid_ballot_length _ n hperm2
  have hdw₁ : d ∈ u ++ t₁ := List.mem_append_left _ hd
  have hdw₂ : d ∈ u ++ t₂ := List.mem_append_left _ hd
  have hxw₁ : x ∈ u ++ t₁ := (valid_ballot_mem _ n hperm1 x).mpr hx
  have hxw₂ : x ∈ u ++ t₂ := (valid_ballot_mem _ n hperm2 x).mpr hx
  rw [bCount_char n _ d x hnd₁ hlen₁ hdw₁ hxw₁, bCount_char n _ d x hnd₂ hlen₂ hdw₂ hxw₂,
      bCount_char n _ x d hnd₁ hlen₁ hxw₁ hdw₁, bCount_char n _ x d hnd₂ hlen₂ hxw₂ hdw₂]
  have hidd₁ : (u ++ t₁).indexOf d = u.indexOf d := List.indexOf_append_of_mem hd
  have hidd₂ : (u ++ t₂).indexOf d = u.indexOf d := List.indexOf_append_of_mem hd
  by_cases hxu : x ∈ u
  · rw [List.indexOf_append_of_mem hxu, List.indexOf_append_of_mem hxu, hidd₁, hidd₂]
    exact ⟨rfl, rfl⟩
  · have h1 : u.length ≤ (u ++ t₁).indexOf x := indexOf_ge_of_not_mem_left u t₁ x hxw₁ hxu
    have h2 : u.length ≤ (u ++ t₂).indexOf x := indexOf_ge_of_not_mem_left u t₂ x hxw₂ hxu
    have hdu : u.indexOf d < u.length := List.indexOf_lt_length.mpr hd
    constructor
    · rw [hidd₁, hidd₂, if_pos (by omega), if_pos (by omega)]
    · rw [hidd₁, hidd₂, if_neg (by omega), if_neg (by omega)]

theorem copeland_spec : RuleSpec copeland_scores := by
  constructor
  · -- ok_valid
    intro n p hn hne hval
    match p, hne with
    | b0 :: rest, _ =>
      refine ⟨_, copeland_ok_of_valid (b0 :: rest) b0 rest rfl ?_⟩
      intro b hb
      rw [valid_ballot_length b n (hval b hb),
          valid_ballot_length b0 n (hval b0 (List.mem_cons_self _ _))]
  · -- keys_lt
    intro n p m hval hok a ha
    obtain ⟨b0, rest, hp, hlen, hm⟩ := copeland_ok_elim p m hok
    rw [hm, copelandFold_keys] at ha
    have hb0 : b0.length = n := by
      refine valid_ballot_length b0 n (hval b0 ?_)
      rw [hp]
      exact List.mem_cons_self _ _
    omega
  · -- head_key
    intro n inc fav rest m hval hok
    obtain ⟨b0, rest', hp, hlen, hm⟩ := copeland_ok_elim _ m hok
    rw [hm, copelandFold_keys]
    have hb0 : b0.length = n := by
      refine valid_ballot_length b0 n (hval b0 ?_)
      rw [hp]
      exact List.mem_cons_self _ _
    have hfav : fav < n := by
      have hmem : (fav :: rest) ∈ inc ++ [fav :: rest] :=
        List.mem_append_right _ (List.mem_cons_self _ _)
      exact (valid_ballot_mem _ n (hval _ hmem) fav).mp (List.mem_cons_self _ _)
    omega
  · -- indep
    intro n inc u t₁ t₂ m₁ m₂ hinc hu hperm1 hperm12 h1 h2 d hd
    have hperm2 : (u ++ t₂).Perm (List.range n) :=
      ((List.Perm.append_left u hperm12).symm).trans hperm1
    have hval₁ : ∀ b ∈ inc ++ [u ++ t₁], b.Perm (List.range n) := by
      intro b hb
      rcases List.mem_append.mp hb with hb' | hb'
      · exact hinc b hb'
      · rw [List.mem_singleton.mp hb']
        exact hperm1
    have hval₂ : ∀ b ∈ inc ++ [u ++ t₂], b.Perm (List.range n) := by
      intro b hb
      rcases List.mem_append.mp hb with hb' | hb'
      · exact hinc b hb'
      · rw [List.mem_singleton.mp hb']
        exact hperm2
    obtain ⟨b0₁, rest₁, hp₁, hlen₁, hm₁⟩ := copeland_ok_elim _ m₁ h1
    obtain ⟨b0₂, rest₂, hp₂, hlen₂, hm₂⟩ := copeland_ok_elim _ m₂ h2
    have hb0₁ : b0₁.length = n := by
      refine valid_ballot_length b0₁ n (hval₁ b0₁ ?_)
      rw [hp₁]
      exact List.mem_cons_self _ _
    have hb0₂ : b0₂.length = n := by
      refine valid_ballot_length b0₂ n (hval₂ b0₂ ?_)
      rw [hp₂]
      exact List.mem_cons_self _ _
    rw [hm₁, hm₂, hb0₁, hb0₂, copelandFold_score, copelandFold_score]
    congr 1
    refine List.map_congr_left ?_
    intro ij hij
    obtain ⟨hle, hlt⟩ := (mem_upairs n ij).mp hij
    have key : ∀ x, x < n →
        buildTable n (inc ++ [u ++ t₁]) d x = buildTable n (inc ++ [u ++ t₂]) d x ∧
        buildTable n (inc ++ [u ++ t₁]) x d = buildTable n (inc ++ [u ++ t₂]) x d := by
      intro x hx
      have hcc := copeland_indep_tables n u t₁ t₂ d x hd hperm1 hperm12 hx
      rw [buildTable_append_last, buildTable_append_last, buildTable_append_last,
          buildTable_append_last, hcc.1, hcc.2]
      exact ⟨rfl, rfl⟩
    unfold pairContrib
    by_cases e1 : ij.1 = d
    · have k := key ij.2 hlt
      rw [e1, k.1, k.2]
    · by_cases e2 : ij.2 = d
      · have k := key ij.1 (lt_of_le_of_lt hle hlt)
        rw [e2, k.1, k.2]
      · rw [if_neg e1, if_neg e1, if_neg e2, if_neg e2]

/-! ## Analysis of one pass of the greedy search -/

theorem scanPass_ok_some (rule : Rule) (inc : Profile) (fav : Nat) (ballot : Ballot)
    (others : List Nat) :
    ∀ (toScan : List Nat) (b' : Ballot) (o' : List Nat),
      (∀ x ∈ toScan, x ∈ others) →
      scanPass rule inc fav ballot others toScan = .ok (some (b', o')) →
      ∃ c m committed, c ∈ others ∧
        rule (inc ++ [ballot ++ c :: others.erase c]) = .ok m ∧
        ¬(m.score fav < m.score c) ∧
        (∀ r ∈ committed, ¬(m.score fav < m.score r)) ∧
        b' = ballot ++ c :: committed ∧
        b' ++ o' = ballot ++ c :: others.erase c ∧
        o'.length < others.length := by
  intro toScan
  induction toScan with
  | nil =>
    intro b' o' _ h
    exact absurd h (by simp [scanPass])
  | cons c rest ih =>
    intro b' o' hsub h
    simp only [scanPass] at h
    split at h
    · exact Except.noConfusion h
    · rename_i scores hrule
      split at h
      · exact ih b' o' (fun x hx => hsub x (List.mem_cons_of_mem c hx)) h
      · rename_i hcmp
        have hpair := Option.some.inj (Except.ok.inj h)
        have hb' : ballot ++ c :: (others.erase c).takeWhile
            (fun r => !decide (scores.score fav < scores.score r)) = b' :=
          congrArg Prod.fst hpair
        have ho' : (others.erase c).dropWhile
            (fun r => !decide (scores.score fav < scores.score r)) = o' :=
          congrArg Prod.snd hpair
        have hc : c ∈ others := hsub c (List.mem_cons_self c rest)
        refine ⟨c, scores,
          (others.erase c).takeWhile (fun r => !decide (scores.score fav < scores.score r)),
          hc, hrule, hcmp, ?_, hb'.symm, ?_, ?_⟩
        · intro r hr
          have := List.mem_takeWhile_imp hr
          rw [Bool.not_eq_true'] at this
          exact of_decide_eq_false this
        · rw [← hb', ← ho', List.append_assoc, List.cons_append,
            List.takeWhile_append_dropWhile]
        · rw [← ho']
          have hdw : ((others.erase c).dropWhile
              (fun r => !decide (scores.score fav < scores.score r))).length
                ≤ (others.erase c).length :=
            List.Sublist.length_le (List.dropWhile_sublist _)
          have her : (others.erase c).length = others.length - 1 :=
            List.length_erase_of_mem hc
          have hpos : 0 < others.length := List.length_pos.mpr (List.ne_nil_of_mem hc)
          omega

/-! ## Unfolding equations and fuel-independence of the search loop -/

theorem searchLoop_nil (rule : Rule) (inc : Profile) (fav : Nat) (fuel : Nat) (ballot : Ballot) :
    searchLoop rule inc fav fuel ballot [] = .ok (some ballot) := by
  cases fuel <;> rfl

theorem searchLoop_zero_cons (rule : Rule) (inc : Profile) (fav : Nat) (ballot : Ballot)
    (c : Nat) (rest : List Nat) :
    searchLoop rule inc fav 0 ballot (c :: rest) = .ok none := rfl

theorem searchLoop_succ_cons (rule : Rule) (inc : Profile) (fav : Nat) (f : Nat)
    (ballot : Ballot) (c : Nat) (rest : List Nat) :
    searchLoop rule inc fav (f + 1) ballot (c :: rest)
      = match scanPass rule inc fav ballot (c :: rest) (c :: rest) with
        | .error e => .error e
        | .ok none => .ok none
        | .ok (some (b, o)) => searchLoop rule inc fav f b o := rfl

theorem searchLoop_fuel_aux (rule : Rule) (inc : Profile) (fav : Nat) :
    ∀ (N fuel₁ fuel₂ : Nat) (ballot : Ballot) (others : List Nat),
      others.length ≤ N → others.length ≤ fuel₁ → others.length ≤ fuel₂ →
      searchLoop rule inc fav fuel₁ ballot others = searchLoop rule inc fav fuel₂ ballot others := by
  intro N
  induction N with
  | zero =>
    intro fuel₁ fuel₂ ballot others hN _ _
    have : others = [] := List.length_eq_zero.mp (Nat.le_zero.mp hN)
    subst this
    rw [searchLoop_nil, searchLoop_nil]
  | succ N ih =>
    intro fuel₁ fuel₂ ballot others hN h1 h2
    cases others with
    | nil => rw [searchLoop_nil, searchLoop_nil]
    | cons c rest =>
      have hlen : (c :: rest).length = rest.length + 1 := rfl
      match fuel₁, h1 with
      | f₁ + 1, h1 =>
        match fuel₂, h2 with
        | f₂ + 1, h2 =>
          rw [searchLoop_succ_cons, searchLoop_succ_cons]
          cases hscan : scanPass rule inc fav ballot (c :: rest) (c :: rest) with
          | error e => rfl
          | ok res =>
            cases res with
            | none => rfl
            | some pr =>
              obtain ⟨b', o'⟩ := pr
              obtain ⟨c', m, committed, _, _, _, _, _, _, hlt⟩ :=
                scanPass_ok_some rule inc fav ballot (c :: rest) (c :: rest) b' o'
                  (fun x hx => hx) hscan
              simp only
              refine ih f₁ f₂ b' o' ?_ ?_ ?_ <;> omega

/-- C8: the `while` loop of `search_manipulative_ballot` needs at most as
many passes as there are remaining alternatives: running `searchLoop`
with any fuel at least `others.length` gives exactly the result obtained
with fuel `others.length` (the fuel `search_manipulative_ballot` uses),
so the loop terminates within that many passes and the embedding is a
total function. -/
theorem searchLoop_fuel (rule : Rule) (inc : Profile) (fav : Nat) (ballot : Ballot)
    (others : List Nat) (fuel : Nat) (h : others.length ≤ fuel) :
    searchLoop rule inc fav fuel ballot others
      = searchLoop rule inc fav others.length ballot others :=
  searchLoop_fuel_aux rule inc fav others.length fuel others.length ballot others
    (le_refl _) h (le_refl _)

/-- C8, witness: concrete instantiation of the fuel bound. -/
theorem searchLoop_fuel_witness :
    searchLoop plurality_scores [[0,1]] 1 7 [1] [0]
      = searchLoop plurality_scores [[0,1]] 1 [0].length [1] [0] :=
  searchLoop_fuel plurality_scores [[0,1]] 1 [1] [0] 7 (by decide)

/-! ## Soundness of the greedy search -/

theorem searchLoop_sound {R : Rule} (hR : RuleSpec R) {n : Nat} {inc : Profile}
    (hinc : ∀ b ∈ inc, b.Perm (List.range n)) (hincne : inc ≠ []) (hn : 0 < n) (fav : Nat) :
    ∀ (fuel : Nat) (ballot : Ballot) (others : List Nat) (b : Ballot),
      ballot.head? = some fav →
      (ballot ++ others).Perm (List.range n) →
      (∀ m, R (inc ++ [ballot ++ others]) = .ok m →
        ∀ d ∈ ballot.tail, m.score d ≤ m.score fav) →
      searchLoop R inc fav fuel ballot others = .ok (some b) →
      b.head? = some fav ∧ b.Perm (List.range n) ∧
      ∃ m, R (inc ++ [b]) = .ok m ∧ ∀ d ∈ b.tail, m.score d ≤ m.score fav := by
  have nilCase : ∀ (ballot : Ballot) (b : Ballot),
      ballot.head? = some fav →
      (ballot ++ []).Perm (List.range n) →
      (∀ m, R (inc ++ [ballot ++ []]) = .ok m →
        ∀ d ∈ ballot.tail, m.score d ≤ m.score fav) →
      b = ballot →
      b.head? = some fav ∧ b.Perm (List.range n) ∧
      ∃ m, R (inc ++ [b]) = .ok m ∧ ∀ d ∈ b.tail, m.score d ≤ m.score fav := by
    intro ballot b hhead hperm hbound hb
    subst hb
    rw [List.append_nil] at hperm hbound
    refine ⟨hhead, hperm, ?_⟩
    have hval : ∀ w ∈ inc ++ [b], w.Perm (List.range n) := by
      intro w hw
      rcases List.mem_append.mp hw with hw' | hw'
      · exact hinc w hw'
      · rw [List.mem_singleton.mp hw']
        exact hperm
    obtain ⟨m, hm⟩ := hR.ok_valid n (inc ++ [b]) hn (by simp) hval
    exact ⟨m, hm, hbound m hm⟩
  intro fuel
  induction fuel with
  | zero =>
    intro ballot others b hhead hperm hbound hrun
    cases others with
    | nil =>
      refine nilCase ballot b hhead hperm hbound ?_
      rw [searchLoop_nil] at hrun
      exact (Option.some.inj (Except.ok.inj hrun)).symm
    | cons c rest =>
      rw [searchLoop_zero_cons] at hrun
      exact absurd (Except.ok.inj hrun) (by simp)
  | succ f ih =>
    intro ballot others b hhead hperm hbound hrun
    cases others with
    | nil =>
      refine nilCase ballot b hhead hperm hbound ?_
      rw [searchLoop_nil] at hrun
      exact (Option.some.inj (Except.ok.inj hrun)).symm
    | cons c rest =>
      rw [searchLoop_succ_cons] at hrun
      split at hrun
      · exact Except.noConfusion hrun
      · exact absurd (Except.ok.inj hrun) (by simp)
      · rename_i b'' o'' hscan
        obtain ⟨c', m, committed, hc', hrule, hcmp, hcomm, hb'', hbo, _⟩ :=
          scanPass_ok_some R inc fav ballot (c :: rest) (c :: rest) b'' o''
            (fun x hx => hx) hscan
        obtain ⟨bt, rfl⟩ : ∃ bt, ballot = fav :: bt := by
          cases ballot with
          | nil => exact Option.noConfusion hhead
          | cons a bt => exact ⟨bt, by rw [Option.some.inj hhead]⟩
        have hpermtail : (c :: rest).Perm (c' :: (c :: rest).erase c') :=
          List.perm_cons_erase hc'
        have hperm' : (b'' ++ o'').Perm (List.range n) := by
          rw [hbo]
          exact ((hpermtail.append_left (fav :: bt)).symm.trans hperm)
        have hhead' : b''.head? = some fav := by
          rw [hb'']
          rfl
        have htail'' : b''.tail = bt ++ c' :: committed := by
          rw [hb'']
          rfl
        have hbound' : ∀ m', R (inc ++ [b'' ++ o'']) = .ok m' →
            ∀ d ∈ b''.tail, m'.score d ≤ m'.score fav := by
          intro m' hm' d hd
          rw [hbo] at hm'
          have hmm : m' = m := by
            have := hrule.symm.trans hm'
            exact (Except.ok.inj this).symm
          rw [hmm]
          rw [htail''] at hd
          rcases List.mem_append.mp hd with hdbt | hdc
          · -- transfer the old bound through arrangement-independence
            have hvalold : ∀ w ∈ inc ++ [(fav :: bt) ++ (c :: rest)], w.Perm (List.range n) := by
              intro w hw
              rcases List.mem_append.mp hw with hw' | hw'
              · exact hinc w hw'
              · rw [List.mem_singleton.mp hw']
                exact hperm
            obtain ⟨m₀, hm₀⟩ := hR.ok_valid n (inc ++ [(fav :: bt) ++ (c :: rest)]) hn
              (by simp) hvalold
            have hold := hbound m₀ hm₀
            have hind := hR.indep n inc (fav :: bt) (c :: rest) (c' :: (c :: rest).erase c')
              m₀ m hinc (List.cons_ne_nil fav bt) hperm hpermtail hm₀ hrule
            have hd' : m.score d = m₀.score d :=
              (hind d (List.mem_cons_of_mem fav hdbt)).symm
            have hf' : m.score fav = m₀.score fav :=
              (hind fav (List.mem_cons_self fav bt)).symm
            rw [hd', hf']
            exact hold d hdbt
          · rcases List.mem_cons.mp hdc with rfl | hdcom
            · exact Int.not_lt.mp hcmp
            · exact Int.not_lt.mp (hcomm d hdcom)
        exact ih b'' o'' b hhead' hperm' hbound' hrun

/-! ## The maximum of a non-empty score list -/

theorem foldl_max_facts : ∀ (xs : List Int) (acc : Int),
    (xs.foldl max acc = acc ∨ xs.foldl max acc ∈ xs) ∧
    acc ≤ xs.foldl max acc ∧ ∀ x ∈ xs, x ≤ xs.foldl max acc := by
  intro xs
  induction xs with
  | nil => simp
  | cons y ys ih =>
    intro acc
    obtain ⟨hmem, hle, hall⟩ := ih (max acc y)
    rw [List.foldl_cons]
    refine ⟨?_, ?_, ?_⟩
    · rcases hmem with h | h
      · rcases max_choice acc y with hc | hc
        · left
          rw [h, hc]
        · right
          rw [h, hc]
          exact List.mem_cons_self y ys
      · right
        exact List.mem_cons_of_mem y h
    · exact le_trans (le_max_left acc y) hle
    · intro x hx
      rcases List.mem_cons.mp hx with rfl | hx'
      · exact le_trans (le_max_right acc x) hle
      · exact hall x hx'

theorem listMax_spec (l : List Int) (hl : l ≠ []) :
    ∃ M, listMax l = some M ∧ M ∈ l ∧ ∀ x ∈ l, x ≤ M := by
  match l, hl with
  | x :: xs, _ =>
    obtain ⟨hmem, hle, hall⟩ := foldl_max_facts xs x
    refine ⟨xs.foldl max x, rfl, ?_, ?_⟩
    · rcases hmem with h | h
      · rw [h]
        exact List.mem_cons_self x xs
      · exact List.mem_cons_of_mem x h
    · intro z hz
      rcases List.mem_cons.mp hz with rfl | hz'
      · exact hle
      · exact hall z hz'

/-! ## Structure of a returned manipulative ballot -/

theorem searchLoop_ballot (rule : Rule) (inc : Profile) (fav : Nat) :
    ∀ (fuel : Nat) (ballot : Ballot) (others : List Nat) (b : Ballot),
      ballot ≠ [] →
      searchLoop rule inc fav fuel ballot others = .ok (some b) →
      b.head? = ballot.head? ∧ b.Perm (ballot ++ others) := by
  intro fuel
  induction fuel with
  | zero =>
    intro ballot others b hne hrun
    cases others with
    | nil =>
      rw [searchLoop_nil] at hrun
      have hb : b = ballot := (Option.some.inj (Except.ok.inj hrun)).symm
      subst hb
      exact ⟨rfl, by rw [List.append_nil]⟩
    | cons c rest =>
      rw [searchLoop_zero_cons] at hrun
      exact absurd (Except.ok.inj hrun) (by simp)
  | succ f ih =>
    intro ballot others b hne hrun
    cases others with
    | nil =>
      rw [searchLoop_nil] at hrun
      have hb : b = ballot := (Option.some.inj (Except.ok.inj hrun)).symm
      subst hb
      exact ⟨rfl, by rw [List.append_nil]⟩
    | cons c rest =>
      rw [searchLoop_succ_cons] at hrun
      split at hrun
      · exact Except.noConfusion hrun
      · exact absurd (Except.ok.inj hrun) (by simp)
      · rename_i b'' o'' hscan
        obtain ⟨c', m, committed, hc', _, _, _, hb'', hbo, _⟩ :=
          scanPass_ok_some rule inc fav ballot (c :: rest) (c :: rest) b'' o''
            (fun x hx => hx) hscan
        have hb''ne : b'' ≠ [] := by
          rw [hb'']
          intro h
          exact hne (List.append_eq_nil.mp h).1
        obtain ⟨hhead, hperm⟩ := ih b'' o'' b hb''ne hrun
        constructor
        · rw [hhead, hb'']
          match ballot, hne with
          | a :: bt, _ => rfl
        · have hpermtail : (c :: rest).Perm (c' :: (c :: rest).erase c') :=
            List.perm_cons_erase hc'
          have h2 : (b'' ++ o'').Perm (ballot ++ c :: rest) := by
            rw [hbo]
            exact (hpermtail.append_left ballot).symm
          exact hperm.trans h2

/-- C9: whenever `search_manipulative_ballot` returns a ballot, that
ballot is complete — a permutation of the alternative set
`0, …, n-1` read off the first ballot of the incomplete profile, hence
containing every alternative exactly once — and it carries the
favourite alternative in the first position. -/
theorem search_returns_complete_ballot (rule : Rule) (inc : Profile) (fav : Nat) (b : Ballot)
    (hrun : search_manipulative_ballot rule inc fav = .ok (some b)) :
    ∃ b0 rest, inc = b0 :: rest ∧ b.head? = some fav ∧ b.Perm (List.range b0.length) := by
  match inc, hrun with
  | b0 :: rest, hrun =>
    refine ⟨b0, rest, rfl, ?_⟩
    simp only [search_manipulative_ballot] at hrun
    by_cases hfav : fav ∈ List.range b0.length
    · rw [if_pos hfav] at hrun
      obtain ⟨hhead, hperm⟩ := searchLoop_ballot rule (b0 :: rest) fav _ [fav]
        ((List.range b0.length).erase fav) b (List.cons_ne_nil fav []) hrun
      refine ⟨hhead, hperm.trans ?_⟩
      exact (List.perm_cons_erase hfav).symm
    · rw [if_neg hfav] at hrun
      exact Except.noConfusion hrun

/-- C9, witness: the search on `[[0,1]]` for favourite `1` returns the
complete ballot `[1,0]` with the favourite on top. -/
theorem search_returns_complete_ballot_witness :
    ∃ b0 rest, ([[0,1]] : Profile) = b0 :: rest ∧ ([1,0] : Ballot).head? = some 1 ∧
      ([1,0] : Ballot).Perm (List.range b0.length) :=
  search_returns_complete_ballot plurality_scores [[0,1]] 1 [1,0] (by decide)

/-- C4: soundness of the greedy search. For each of the three scoring
rules, on any incomplete profile satisfying the search precondition
(non-empty, all ballots permutations of the alternative set, favourite
among the alternatives), whenever `search_manipulative_ballot` returns a
ballot `b`, the favourite attains the maximum score of the full profile
`incomplete_profile ++ [b]`, i.e. it belongs to the winner set computed
by `winners`. -/
theorem search_sound (R : Rule) (hR : GoodRule R) (n : Nat) (inc : Profile) (fav : Nat)
    (b : Ballot) (hval : ValidProfile n inc) (hfav : fav < n)
    (hrun : search_manipulative_ballot R inc fav = .ok (some b)) :
    ∃ ws, winners R (inc ++ [b]) = .ok ws ∧ fav ∈ ws := by
  obtain ⟨hne, hinc⟩ := hval
  have hRS : RuleSpec R := by
    rcases hR with rfl | rfl | rfl
    exacts [plurality_spec, borda_spec, copeland_spec]
  have hn : 0 < n := lt_of_le_of_lt (Nat.zero_le fav) hfav
  match inc, hne, hinc with
  | b0 :: inc', _, hinc =>
    have hb0len : b0.length = n :=
      valid_ballot_length b0 n (hinc b0 (List.mem_cons_self b0 inc'))
    simp only [search_manipulative_ballot] at hrun
    rw [hb0len] at hrun
    have hfavmem : fav ∈ List.range n := List.mem_range.mpr hfav
    rw [if_pos hfavmem] at hrun
    have hperm0 : (([fav] : List Nat) ++ (List.range n).erase fav).Perm (List.range n) :=
      (List.perm_cons_erase hfavmem).symm
    have hbound0 : ∀ m, R ((b0 :: inc') ++ [([fav] : List Nat) ++ (List.range n).erase fav]) = .ok m →
        ∀ d ∈ ([fav] : List Nat).tail, m.score d ≤ m.score fav := by
      intro m _ d hd
      exact absurd hd (List.not_mem_nil d)
    obtain ⟨hhead, hpermb, m, hokm, hbounds⟩ :=
      searchLoop_sound hRS hinc (List.cons_ne_nil b0 inc') hn fav _
        [fav] ((List.range n).erase fav) b rfl hperm0 hbound0 hrun
    obtain ⟨bt, rfl⟩ : ∃ bt, b = fav :: bt := by
      cases b with
      | nil => exact Option.noConfusion hhead
      | cons a bt => exact ⟨bt, by rw [Option.some.inj hhead]⟩
    have hvalfull : ∀ w ∈ (b0 :: inc') ++ [fav :: bt], w.Perm (List.range n) := by
      intro w hw
      rcases List.mem_append.mp hw with hw' | hw'
      · exact hinc w hw'
      · rw [List.mem_singleton.mp hw']
        exact hpermb
    have hkeys_lt : ∀ a ∈ m.keys, a < n :=
      hRS.keys_lt n ((b0 :: inc') ++ [fav :: bt]) m hvalfull hokm
    have hfavkey : fav ∈ m.keys :=
      hRS.head_key n (b0 :: inc') fav bt m hvalfull hokm
    have hboundall : ∀ k ∈ m.keys, m.score k ≤ m.score fav := by
      intro k hk
      have hkn : k < n := hkeys_lt k hk
      have hkb : k ∈ fav :: bt := (valid_ballot_mem _ n hpermb k).mpr hkn
      rcases List.mem_cons.mp hkb with rfl | hkt
      · exact le_refl _
      · exact hbounds k hkt
    have hmapne : m.keys.map m.score ≠ [] := by
      intro hmap
      rw [List.map_eq_nil_iff] at hmap
      rw [hmap] at hfavkey
      exact List.not_mem_nil fav hfavkey
    obtain ⟨M, hM, hMmem, hMle⟩ := listMax_spec (m.keys.map m.score) hmapne
    have hMfav : M = m.score fav := by
      refine le_antisymm ?_ ?_
      · obtain ⟨k, hk, hkM⟩ := List.mem_map.mp hMmem
        rw [← hkM]
        exact hboundall k hk
      · exact hMle (m.score fav) (List.mem_map_of_mem m.score hfavkey)
    refine ⟨m.keys.filter (fun a => m.score a = M), ?_, ?_⟩
    · simp only [winners, hokm, hM]
    · rw [List.mem_filter]
      exact ⟨hfavkey, by rw [hMfav]; simp⟩

/-- C4, witness: the search under plurality on `[[0,1]]` with favourite
`1` returns `[1,0]`, and `1` is indeed in the winner set of
`[[0,1],[1,0]]`. -/
theorem search_sound_witness :
    ∃ ws, winners plurality_scores ([[0,1]] ++ [[1,0]]) = .ok ws ∧ 1 ∈ ws :=
  search_sound plurality_scores (Or.inl rfl) 2 [[0,1]] 1 [1,0]
    ⟨by decide, by decide⟩ (by decide) (by decide)

/-! ## C7: the Copeland score as a sum of pairwise majority contests -/

theorem signTerm_neg (x : Int) : -signTerm x = signTerm (-x) := by
  unfold signTerm
  rcases lt_trichotomy x 0 with h | h | h
  · rw [if_neg (by omega), if_neg (by omega), if_neg (by omega), if_pos (by omega)]
    norm_num
  · rw [h]
    simp
  · rw [if_neg (by omega), if_pos h, if_neg (by omega), if_neg (by omega)]

theorem sum_map_add {ι : Type} (l : List ι) (f g : ι → Int) :
    (l.map (fun x => f x + g x)).sum = (l.map f).sum + (l.map g).sum := by
  induction l with
  | nil => simp
  | cons x xs ih => simp [ih]; ring

theorem sum_map_flatMap {α β : Type} (l : List α) (F : α → List β) (G : β → Int) :
    ((l.flatMap F).map G).sum = (l.map (fun x => ((F x).map G).sum)).sum := by
  induction l with
  | nil => simp
  | cons x xs ih =>
    rw [List.flatMap_cons, List.map_append, List.sum_append, ih, List.map_cons, List.sum_cons]

theorem sum_map_ite_eq (l : List Nat) (hl : l.Nodup) (a : Nat) (F : Nat → Int) :
    (l.map (fun i => if i = a then F i else 0)).sum = if a ∈ l then F a else 0 := by
  induction l with
  | nil => simp
  | cons x xs ih =>
    rw [List.map_cons, List.sum_cons, ih (List.nodup_cons.mp hl).2]
    by_cases hx : x = a
    · subst hx
      have hnx : x ∉ xs := (List.nodup_cons.mp hl).1
      rw [if_pos rfl, if_neg hnx, if_pos (List.mem_cons_self x xs), add_zero]
    · rw [if_neg hx]
      by_cases hmem : a ∈ xs
      · rw [if_pos hmem, if_pos (List.mem_cons_of_mem x hmem), zero_add]
      · have hnm : a ∉ x :: xs := by
          intro hc
          rcases List.mem_cons.mp hc with rfl | hc'
          · exact hx rfl
          · exact hmem hc'
        rw [if_neg hmem, if_neg hnm, zero_add]

theorem indexOf_ne_of_ne (w : List Nat) (a b : Nat) (ha : a ∈ w) (hb : b ∈ w)
    (hab : a ≠ b) : w.indexOf a ≠ w.indexOf b := by
  intro h
  have hlt : w.indexOf a < w.length := List.indexOf_lt_length.mpr ha
  have hltb : w.indexOf b < w.length := List.indexOf_lt_length.mpr hb
  have hfin : (⟨w.indexOf a, hlt⟩ : Fin w.length) = ⟨w.indexOf b, hltb⟩ := Fin.ext h
  apply hab
  calc a = w.get ⟨w.indexOf a, hlt⟩ := (List.indexOf_get hlt).symm
    _ = w.get ⟨w.indexOf b, hltb⟩ := by rw [hfin]
    _ = b := List.indexOf_get hltb

theorem bCount_strict (n : Nat) (w : Ballot) (a b : Nat) (hnd : w.Nodup)
    (hlen : w.length = n) (ha : a ∈ w) (hb : b ∈ w) (hab : a ≠ b) :
    bCount n w a b = if w.indexOf a < w.indexOf b then 1 else 0 := by
  rw [bCount_char n w a b hnd hlen ha hb]
  have hne := indexOf_ne_of_ne w a b ha hb hab
  by_cases hle : w.indexOf a ≤ w.indexOf b
  · rw [if_pos hle, if_pos (by omega)]
  · rw [if_neg hle, if_neg (by omega)]

theorem buildTable_above (n : Nat) (p : Profile) (hval : ∀ w ∈ p, w.Perm (List.range n))
    (a b : Nat) (ha : a < n) (hb : b < n) (hab : a ≠ b) :
    buildTable n p a b = aboveCount p a b := by
  rw [buildTable_val, aboveCount]
  have hcong : ∀ w ∈ p, bCount n w a b
      = (fun w : Ballot => if w.indexOf a < w.indexOf b then (1 : Nat) else 0) w := by
    intro w hw
    exact bCount_strict n w a b (valid_ballot_nodup w n (hval w hw))
      (valid_ballot_length w n (hval w hw))
      ((valid_ballot_mem w n (hval w hw) a).mpr ha)
      ((valid_ballot_mem w n (hval w hw) b).mpr hb) hab
  rw [List.map_congr_left hcong]
  exact sum_map_ite_one_nat p (fun w => w.indexOf a < w.indexOf b)

theorem signTerm_above (p : Profile) (a b : Nat) (x y : Nat)
    (hx : x = aboveCount p a b) (hy : y = aboveCount p b a) :
    signTerm ((x : Int) - y) = majorityTerm p a b := by
  subst hx
  subst hy
  unfold signTerm majorityTerm
  rcases Nat.lt_trichotomy (aboveCount p a b) (aboveCount p b a) with h | h | h
  · rw [if_neg (by omega), if_neg (by omega), if_neg (by omega), if_pos (by omega)]
  · rw [if_pos (by omega), if_neg (by omega), if_neg (by omega)]
  · rw [if_neg (by omega), if_pos (by omega), if_pos (by omega)]


/-- C7: on any valid non-empty profile, `copeland_scores` assigns to each
alternative `a` the sum, over every other alternative `b`, of `+1` if
`a` is ranked above `b` on strictly more ballots than `b` above `a`,
`-1` if on strictly fewer, and `0` on an exact tie. -/
theorem copeland_pairwise (n : Nat) (p : Profile) (hval : ValidProfile n p) (a : Nat)
    (ha : a < n) :
    ∃ m, copeland_scores p = .ok m ∧
      m.score a = (((List.range n).filter (fun b => b ≠ a)).map (majorityTerm p a)).sum := by
  obtain ⟨hne, hvb⟩ := hval
  match p, hne, hvb with
  | b0 :: rest, _, hvb =>
    have hb0 : b0.length = n := valid_ballot_length b0 n (hvb b0 (List.mem_cons_self b0 rest))
    have hok := copeland_ok_of_valid (b0 :: rest) b0 rest rfl
      (fun b hb => by rw [valid_ballot_length b n (hvb b hb), hb0])
    rw [hb0] at hok
    refine ⟨_, hok, ?_⟩
    rw [copelandFold_score]
    set tbl := buildTable n (b0 :: rest) with htbl
    set g : Nat → Int := fun x => signTerm ((tbl a x : Int) - tbl x a) with hg
    have hpoint : ∀ ij ∈ upairs n, pairContrib tbl ij a
        = (if ij.1 = a then g ij.2 else 0) + (if ij.2 = a then g ij.1 else 0) := by
      intro ij _
      obtain ⟨i1, i2⟩ := ij
      unfold pairContrib
      by_cases e1 : i1 = a
      · by_cases e2 : i2 = a
        · rw [if_pos e1, if_pos e1, if_pos e2, if_pos e2, hg, e1, e2]
          simp [sub_self, signTerm]
        · rw [if_pos e1, if_pos e1, if_neg e2, if_neg e2, hg, e1]
      · by_cases e2 : i2 = a
        · rw [if_neg e1, if_neg e1, if_pos e2, if_pos e2, hg, e2, signTerm_neg, neg_sub]
        · rw [if_neg e1, if_neg e1, if_neg e2, if_neg e2]
    rw [List.map_congr_left hpoint, sum_map_add]
    have hsum1 : ((upairs n).map (fun ij => if ij.1 = a then g ij.2 else 0)).sum
        = ((List.range' a (n - a)).map g).sum := by
      unfold upairs
      rw [sum_map_flatMap]
      have hinner : ∀ i ∈ List.range n,
          ((((List.range' i (n - i)).map (fun j => (i, j))).map
            (fun ij : Nat × Nat => if ij.1 = a then g ij.2 else 0))).sum
          = if i = a then ((List.range' i (n - i)).map g).sum else 0 := by
        intro i _
        rw [List.map_map]
        by_cases hi : i = a
        · rw [if_pos hi]
          refine congrArg List.sum (List.map_congr_left ?_)
          intro j _
          simp [Function.comp, hi]
        · rw [if_neg hi]
          have hz : ((List.range' i (n - i)).map
              ((fun ij : Nat × Nat => if ij.1 = a then g ij.2 else 0) ∘ (fun j => (i, j))))
              = (List.range' i (n - i)).map (fun _ => (0 : Int)) := by
            refine List.map_congr_left ?_
            intro j _
            simp [Function.comp, hi]
          rw [hz]
          simp
      rw [List.map_congr_left hinner,
        sum_map_ite_eq (List.range n) (List.nodup_range n) a
          (fun i => ((List.range' i (n - i)).map g).sum),
        if_pos (List.mem_range.mpr ha)]
    have hsum2 : ((upairs n).map (fun ij => if ij.2 = a then g ij.1 else 0)).sum
        = ((List.range a).map g).sum + g a := by
      unfold upairs
      rw [sum_map_flatMap]
      have hinner : ∀ i ∈ List.range n,
          ((((List.range' i (n - i)).map (fun j => (i, j))).map
            (fun ij : Nat × Nat => if ij.2 = a then g ij.1 else 0))).sum
          = if i ≤ a then g i else 0 := by
        intro i hi
        have hilt : i < n := List.mem_range.mp hi
        rw [List.map_map]
        have heq : ((List.range' i (n - i)).map
            ((fun ij : Nat × Nat => if ij.2 = a then g ij.1 else 0) ∘ (fun j => (i, j))))
            = (List.range' i (n - i)).map (fun j => if j = a then g i else 0) := by
          refine List.map_congr_left ?_
          intro j _
          simp [Function.comp]
        rw [heq, sum_map_ite_eq (List.range' i (n - i)) (List.nodup_range' i (n - i)) a
          (fun _ => g i)]
        by_cases hia : i ≤ a
        · rw [if_pos (List.mem_range'_1.mpr ⟨hia, by omega⟩), if_pos hia]
        · rw [if_neg (fun hmem => hia (List.mem_range'_1.mp hmem).1), if_neg hia]
      rw [List.map_congr_left hinner]
      have hsplit : List.range n = List.range (a + 1) ++ List.range' (a + 1) (n - (a + 1)) := by
        rw [List.range_eq_range', List.range_eq_range']
        have happ := List.range'_append 0 (a + 1) (n - (a + 1)) 1
        simp only [Nat.one_mul, Nat.zero_add] at happ
        conv_lhs => rw [show n = n - (a + 1) + (a + 1) from by omega]
        exact happ.symm
      rw [hsplit, List.map_append, List.sum_append]
      have h1 : ((List.range (a + 1)).map (fun i => if i ≤ a then g i else 0)).sum
          = ((List.range a).map g).sum + g a := by
        have hmc : (List.range (a + 1)).map (fun i => if i ≤ a then g i else 0)
            = (List.range (a + 1)).map g := by
          refine List.map_congr_left ?_
          intro i hi
          have := List.mem_range.mp hi
          rw [if_pos (by omega)]
        rw [hmc, List.range_succ, List.map_append, List.sum_append]
        simp
      have h2 : ((List.range' (a + 1) (n - (a + 1))).map
          (fun i => if i ≤ a then g i else 0)).sum = 0 := by
        have hmc : (List.range' (a + 1) (n - (a + 1))).map (fun i => if i ≤ a then g i else 0)
            = (List.range' (a + 1) (n - (a + 1))).map (fun _ => (0 : Int)) := by
          refine List.map_congr_left ?_
          intro i hi
          have := (List.mem_range'_1.mp hi).1
          rw [if_neg (by omega)]
        rw [hmc]
        simp
      rw [h1, h2, add_zero]
    have hga : g a = 0 := by
      rw [hg]
      simp [sub_self, signTerm]
    have hr1 : List.range' a (n - a) = a :: List.range' (a + 1) (n - (a + 1)) := by
      have hna : n - a = (n - (a + 1)) + 1 := by omega
      rw [hna, List.range'_succ]
    rw [hsum1, hsum2, hr1, List.map_cons, List.sum_cons, hga, zero_add, add_zero]
    have hfil : (List.range n).filter (fun b => decide (b ≠ a))
        = List.range a ++ List.range' (a + 1) (n - (a + 1)) := by
      have hsplit : List.range n = List.range (a + 1) ++ List.range' (a + 1) (n - (a + 1)) := by
        rw [List.range_eq_range', List.range_eq_range']
        have happ := List.range'_append 0 (a + 1) (n - (a + 1)) 1
        simp only [Nat.one_mul, Nat.zero_add] at happ
        conv_lhs => rw [show n = n - (a + 1) + (a + 1) from by omega]
        exact happ.symm
      rw [hsplit, List.filter_append, List.range_succ, List.filter_append]
      have f1 : (List.range a).filter (fun b => decide (b ≠ a)) = List.range a := by
        rw [List.filter_eq_self]
        intro x hx
        have := List.mem_range.mp hx
        simp only [decide_eq_true_eq]
        omega
      have f2 : ([a] : List Nat).filter (fun b => decide (b ≠ a)) = [] := by simp
      have f3 : (List.range' (a + 1) (n - (a + 1))).filter (fun b => decide (b ≠ a))
          = List.range' (a + 1) (n - (a + 1)) := by
        rw [List.filter_eq_self]
        intro x hx
        have := (List.mem_range'_1.mp hx).1
        simp only [decide_eq_true_eq]
        omega
      rw [f1, f2, f3, List.append_nil]
    rw [hfil]
    have hmt : ∀ x ∈ List.range a ++ List.range' (a + 1) (n - (a + 1)),
        g x = majorityTerm (b0 :: rest) a x := by
      intro x hx
      have hxna : x < n ∧ x ≠ a := by
        rcases List.mem_append.mp hx with hx' | hx'
        · have := List.mem_range.mp hx'
          omega
        · have h1 := (List.mem_range'_1.mp hx').1
          have h2 := (List.mem_range'_1.mp hx').2
          omega
      rw [hg]
      refine signTerm_above (b0 :: rest) a x (tbl a x) (tbl x a) ?_ ?_
      · exact buildTable_above n (b0 :: rest) hvb a x ha hxna.1 (fun h => hxna.2 h.symm)
      · exact buildTable_above n (b0 :: rest) hvb x a hxna.1 ha hxna.2
    rw [← List.map_congr_left hmt, List.map_append, List.sum_append]
    ring

/-- C7, witness: the Copeland scores of `[[0,1,2],[1,0,2]]` match the
pairwise-majority sum for alternative 0. -/
theorem copeland_pairwise_witness :
    ∃ m, copeland_scores [[0,1,2],[1,0,2]] = .ok m ∧
      m.score 0 = (((List.range 3).filter (fun b => b ≠ 0)).map
        (majorityTerm [[0,1,2],[1,0,2]] 0)).sum :=
  copeland_pairwise 3 [[0,1,2],[1,0,2]] ⟨by decide, by decide⟩ 0 (by decide)

/-! ## C10: permutation invariance of the scoring rules -/

theorem ScoreMap.EquivD.refl (m : ScoreMap) : m.EquivD m :=
  ⟨fun _ => Iff.rfl, fun _ => rfl⟩

theorem sameOutcome_refl (x : Except PyErr ScoreMap) : SameOutcome x x := by
  cases x with
  | error e => exact Or.inl ⟨e, rfl, rfl⟩
  | ok m => exact Or.inr ⟨m, m, rfl, rfl, ScoreMap.EquivD.refl m⟩

theorem purePlur_keys_nodup (p : Profile) : (purePlur p).keys.Nodup := by
  refine foldl_keys_nodup (fun m b => m.bump (b.headD 0) 1) ?_ p ScoreMap.empty ?_
  · intro m b hm
    exact bump_keys_nodup m _ 1 hm
  · exact List.nodup_nil

theorem bordaFold_keys_nodup (p : Profile) :
    ((p.foldl bordaBallot ScoreMap.empty)).keys.Nodup := by
  refine foldl_keys_nodup bordaBallot ?_ p ScoreMap.empty List.nodup_nil
  intro m b hm
  unfold bordaBallot
  refine foldl_keys_nodup _ ?_ b.enum m hm
  intro m' ia hm'
  exact bump_keys_nodup m' _ _ hm'

theorem copelandFold_keys_nodup (t : Nat → Nat → Nat) (n : Nat) :
    (((upairs n).foldl (copelandStep t) ScoreMap.empty)).keys.Nodup := by
  refine foldl_keys_nodup (copelandStep t) ?_ (upairs n) ScoreMap.empty List.nodup_nil
  intro m ij hm
  unfold copelandStep
  by_cases h0 : ((t ij.1 ij.2 : Int) - (t ij.2 ij.1 : Int)) = 0
  · rw [if_pos h0]
    exact bump_keys_nodup _ _ _ (bump_keys_nodup m _ _ hm)
  · rw [if_neg h0]
    by_cases hp : (0 : Int) < (t ij.1 ij.2 : Int) - (t ij.2 ij.1 : Int)
    · rw [if_pos hp]
      exact bump_keys_nodup _ _ _ (bump_keys_nodup m _ _ hm)
    · rw [if_neg hp]
      exact bump_keys_nodup _ _ _ (bump_keys_nodup m _ _ hm)

theorem rule_keys_nodup (R : Rule) (hR : GoodRule R) (p : Profile) (m : ScoreMap)
    (h : R p = .ok m) : m.keys.Nodup := by
  rcases hR with rfl | rfl | rfl
  · rw [(plurality_ok_elim p m h).2]
    exact purePlur_keys_nodup p
  · rw [(Except.ok.inj h).symm]
    exact bordaFold_keys_nodup p
  · obtain ⟨b0, rest, _, _, hm⟩ := copeland_ok_elim p m h
    rw [hm]
    exact copelandFold_keys_nodup _ _

theorem plurality_error_of_empty_ballot (p : Profile) (h : ∃ b ∈ p, b = []) :
    plurality_scores p = .error .indexError := by
  have key : ∀ (q : Profile) (m0 : ScoreMap), (∃ b ∈ q, b = []) →
      q.foldlM plurStep m0 = .error .indexError := by
    intro q
    induction q with
    | nil =>
      intro m0 h'
      obtain ⟨b, hb, _⟩ := h'
      exact absurd hb (List.not_mem_nil b)
    | cons b bs ih =>
      intro m0 h'
      cases hb : b with
      | nil => rfl
      | cons a t =>
        obtain ⟨b', hb', hb'nil⟩ := h'
        rcases List.mem_cons.mp hb' with rfl | hmem
        · rw [hb] at hb'nil
          exact absurd hb'nil (List.cons_ne_nil a t)
        · subst hb
          simp only [List.foldlM_cons, plurStep]
          rw [show (Except.ok (ε := PyErr) (m0.bump a 1) >>= fun b' =>
                List.foldlM plurStep b' bs) = List.foldlM plurStep (m0.bump a 1) bs from rfl]
          exact ih (m0.bump a 1) ⟨b', hmem, hb'nil⟩
  exact key p ScoreMap.empty h

theorem plurality_perm_cong (q q' : Profile) (hperm : q.Perm q') :
    SameOutcome (plurality_scores q) (plurality_scores q') := by
  by_cases hemp : ∃ b ∈ q, b = []
  · left
    refine ⟨.indexError, plurality_error_of_empty_ballot q hemp, ?_⟩
    refine plurality_error_of_empty_ballot q' ?_
    obtain ⟨b, hb, hbnil⟩ := hemp
    exact ⟨b, hperm.mem_iff.mp hb, hbnil⟩
  · right
    push_neg at hemp
    have hemp' : ∀ b ∈ q', b ≠ [] := fun b hb => hemp b (hperm.mem_iff.mpr hb)
    refine ⟨purePlur q, purePlur q', plurality_ok_of_valid q hemp,
      plurality_ok_of_valid q' hemp', ?_, ?_⟩
    · intro a
      rw [purePlur_keys, purePlur_keys]
      constructor
      · rintro ⟨b, hb, hba⟩
        exact ⟨b, hperm.mem_iff.mp hb, hba⟩
      · rintro ⟨b, hb, hba⟩
        exact ⟨b, hperm.mem_iff.mpr hb, hba⟩
    · intro a
      rw [purePlur_score, purePlur_score, hperm.countP_eq]

theorem borda_perm_cong (q q' : Profile) (hperm : q.Perm q') :
    SameOutcome (borda_scores q) (borda_scores q') := by
  right
  refine ⟨_, _, rfl, rfl, ?_, ?_⟩
  · intro a
    rw [borda_keys, borda_keys]
    constructor
    · rintro ⟨b, hb, hba⟩
      exact ⟨b, hperm.mem_iff.mp hb, hba⟩
    · rintro ⟨b, hb, hba⟩
      exact ⟨b, hperm.mem_iff.mpr hb, hba⟩
  · intro a
    rw [borda_score, borda_score]
    exact (hperm.map (fun b => bordaContrib b a)).sum_eq

theorem copeland_ok_of_no_short (b0 : Ballot) (rest : Profile)
    (h : ¬∃ b ∈ b0 :: rest, b.length < b0.length) :
    copeland_scores (b0 :: rest)
      = .ok ((upairs b0.length).foldl
          (copelandStep (buildTable b0.length (b0 :: rest))) ScoreMap.empty) := by
  simp only [copeland_scores]
  split
  · rename_i hcond
    exfalso
    rw [List.any_eq_true] at hcond
    obtain ⟨b, hb, hlt⟩ := hcond
    rw [decide_eq_true_eq] at hlt
    exact h ⟨b, hb, hlt⟩
  · rfl

theorem copeland_perm_cong (q q' : Profile) (hperm : q.Perm q')
    (hhead : (q.headD []).length = (q'.headD []).length) :
    SameOutcome (copeland_scores q) (copeland_scores q') := by
  cases hq : q with
  | nil =>
    have hq' : q' = [] := by
      rw [hq] at hperm
      exact hperm.symm.eq_nil
    rw [hq']
    exact Or.inl ⟨.indexError, rfl, rfl⟩
  | cons b0 t =>
    have hq'ne : q' ≠ [] := by
      intro hnil
      rw [hq, hnil] at hperm
      exact List.cons_ne_nil b0 t hperm.eq_nil
    match q', hq'ne, hhead, hperm with
    | b0' :: t', _, hhead, hperm =>
      have hlen : b0.length = b0'.length := by
        rw [hq] at hhead
        exact hhead
      rw [hq] at hperm
      by_cases hshort : ∃ b ∈ b0 :: t, b.length < b0.length
      · left
        refine ⟨.indexError, ?_, ?_⟩
        · simp only [copeland_scores]
          rw [if_pos]
          rw [List.any_eq_true]
          obtain ⟨b, hb, hbl⟩ := hshort
          refine ⟨b, hb, ?_⟩
          rw [decide_eq_true_eq]
          exact hbl
        · simp only [copeland_scores]
          rw [if_pos]
          rw [List.any_eq_true]
          obtain ⟨b, hb, hbl⟩ := hshort
          refine ⟨b, hperm.mem_iff.mp hb, ?_⟩
          rw [decide_eq_true_eq]
          omega
      · have hshort' : ¬∃ b ∈ b0' :: t', b.length < b0'.length := by
          intro hc
          obtain ⟨b, hb, hbl⟩ := hc
          exact hshort ⟨b, hperm.mem_iff.mpr hb, by omega⟩
        right
        refine ⟨_, _, copeland_ok_of_no_short b0 t hshort,
          copeland_ok_of_no_short b0' t' hshort', ?_⟩
        rw [← hlen]
        have htab : buildTable b0.length (b0 :: t) = buildTable b0.length (b0' :: t') := by
          funext x y
          rw [buildTable_val, buildTable_val]
          exact (hperm.map (fun w => bCount b0.length w x y)).sum_eq
        rw [htab]
        exact ScoreMap.EquivD.refl _

theorem rule_perm_cong (R : Rule) (hR : GoodRule R) (q q' : Profile) (hperm : q.Perm q')
    (hhead : (q.headD []).length = (q'.headD []).length) :
    SameOutcome (R q) (R q') := by
  rcases hR with rfl | rfl | rfl
  · exact plurality_perm_cong q q' hperm
  · exact borda_perm_cong q q' hperm
  · exact copeland_perm_cong q q' hperm hhead

theorem scanPass_congr (R : Rule) (inc₁ inc₂ : Profile) (fav : Nat)
    (hcong : ∀ w : Ballot, SameOutcome (R (inc₁ ++ [w])) (R (inc₂ ++ [w]))) :
    ∀ (toScan : List Nat) (ballot : Ballot) (others : List Nat),
      scanPass R inc₁ fav ballot others toScan
        = scanPass R inc₂ fav ballot others toScan := by
  intro toScan
  induction toScan with
  | nil => intro ballot others; rfl
  | cons c rest ih =>
    intro ballot others
    rcases hcong (ballot ++ c :: others.erase c) with ⟨e, h1, h2⟩ | ⟨m₁, m₂, h1, h2, hEq⟩
    · simp only [scanPass, h1, h2]
    · have hscore : m₁.score = m₂.score := funext hEq.2
      simp only [scanPass, h1, h2, hscore]
      by_cases hc : m₂.score fav < m₂.score c
      · rw [if_pos hc, if_pos hc]
        exact ih ballot others
      · rw [if_neg hc, if_neg hc]

theorem searchLoop_congr (R : Rule) (inc₁ inc₂ : Profile) (fav : Nat)
    (hcong : ∀ w : Ballot, SameOutcome (R (inc₁ ++ [w])) (R (inc₂ ++ [w]))) :
    ∀ (fuel : Nat) (ballot : Ballot) (others : List Nat),
      searchLoop R inc₁ fav fuel ballot others = searchLoop R inc₂ fav fuel ballot others := by
  intro fuel
  induction fuel with
  | zero =>
    intro ballot others
    cases others with
    | nil => rw [searchLoop_nil, searchLoop_nil]
    | cons c rest => rw [searchLoop_zero_cons, searchLoop_zero_cons]
  | succ f ih =>
    intro ballot others
    cases others with
    | nil => rw [searchLoop_nil, searchLoop_nil]
    | cons c rest =>
      rw [searchLoop_succ_cons, searchLoop_succ_cons,
        scanPass_congr R inc₁ inc₂ fav hcong (c :: rest) ballot (c :: rest)]
      cases scanPass R inc₂ fav ballot (c :: rest) (c :: rest) with
      | error e => rfl
      | ok res =>
        cases res with
        | none => rfl
        | some pr =>
          obtain ⟨b', o'⟩ := pr
          simp only
          exact ih b' o'

theorem search_congr (R : Rule) (x y : Ballot) (t₁ t₂ : Profile) (fav : Nat)
    (hlen : x.length = y.length)
    (hcong : ∀ w : Ballot, SameOutcome (R ((x :: t₁) ++ [w])) (R ((y :: t₂) ++ [w]))) :
    search_manipulative_ballot R (x :: t₁) fav = search_manipulative_ballot R (y :: t₂) fav := by
  simp only [search_manipulative_ballot]
  rw [hlen]
  by_cases hmem : fav ∈ List.range y.length
  · rw [if_pos hmem, if_pos hmem]
    exact searchLoop_congr R (x :: t₁) (y :: t₂) fav hcong _ _ _
  · rw [if_neg hmem, if_neg hmem]

theorem winners_congr (R : Rule) (p₁ p₂ : Profile) (hso : SameOutcome (R p₁) (R p₂))
    (hnd₁ : ∀ m, R p₁ = .ok m → m.keys.Nodup) (hnd₂ : ∀ m, R p₂ = .ok m → m.keys.Nodup) :
    (∃ e, winners R p₁ = .error e ∧ winners R p₂ = .error e) ∨
    (∃ w₁ w₂, winners R p₁ = .ok w₁ ∧ winners R p₂ = .ok w₂ ∧ ∀ a, a ∈ w₁ ↔ a ∈ w₂) := by
  rcases hso with ⟨e, h1, h2⟩ | ⟨m₁, m₂, h1, h2, hEq⟩
  · left
    exact ⟨e, by simp only [winners, h1], by simp only [winners, h2]⟩
  · have hscore : m₁.score = m₂.score := funext hEq.2
    have hkeysperm : m₁.keys.Perm m₂.keys :=
      (List.perm_ext_iff_of_nodup (hnd₁ m₁ h1) (hnd₂ m₂ h2)).mpr hEq.1
    cases hk : m₁.keys with
    | nil =>
      have hk' : m₂.keys = [] := by
        rw [hk] at hkeysperm
        exact hkeysperm.symm.eq_nil
      left
      refine ⟨.valueError, ?_, ?_⟩
      · simp only [winners, h1, hk, List.map_nil, listMax]
      · simp only [winners, h2, hk', List.map_nil, listMax]
    | cons k ks =>
      have hne₁ : m₁.keys.map m₁.score ≠ [] := by
        rw [hk]
        simp
      have hne₂ : m₂.keys.map m₂.score ≠ [] := by
        intro hc
        rw [List.map_eq_nil_iff] at hc
        rw [hc] at hkeysperm
        rw [hk] at hkeysperm
        exact List.cons_ne_nil k ks hkeysperm.eq_nil
      obtain ⟨M₁, hM₁, hM₁mem, hM₁le⟩ := listMax_spec _ hne₁
      obtain ⟨M₂, hM₂, hM₂mem, hM₂le⟩ := listMax_spec _ hne₂
      have hmapperm : (m₁.keys.map m₁.score).Perm (m₂.keys.map m₂.score) := by
        rw [hscore]
        exact hkeysperm.map m₂.score
      have hMeq : M₁ = M₂ := by
        refine le_antisymm ?_ ?_
        · exact hM₂le M₁ (hmapperm.mem_iff.mp hM₁mem)
        · exact hM₁le M₂ (hmapperm.mem_iff.mpr hM₂mem)
      right
      refine ⟨m₁.keys.filter (fun a => m₁.score a = M₁),
        m₂.keys.filter (fun a => m₂.score a = M₂), ?_, ?_, ?_⟩
      · simp only [winners, h1, hM₁]
      · simp only [winners, h2, hM₂]
      · intro a
        rw [List.mem_filter, List.mem_filter, hEq.1 a, hscore, hMeq]

theorem perm_cons_eraseIdx : ∀ (l : Profile) (i : Nat) (h : i < l.length),
    l.Perm (l[i] :: l.eraseIdx i) := by
  intro l
  induction l with
  | nil =>
    intro i h
    simp at h
  | cons x xs ih =>
    intro i h
    cases i with
    | zero => exact List.Perm.refl _
    | succ j =>
      have hj : j < xs.length := by simpa using h
      have hstep := (ih j hj).cons x
      show (x :: xs).Perm (xs[j] :: x :: xs.eraseIdx j)
      exact hstep.trans (List.Perm.swap _ _ _)

theorem perm_cons_erase_beq {α : Type} [BEq α] [LawfulBEq α] (a : α) (l : List α)
    (h : a ∈ l) : l.Perm (a :: l.erase a) := by
  induction l with
  | nil => cases h
  | cons x xs ih =>
    rw [List.erase_cons]
    by_cases hx : x = a
    · subst hx
      rw [if_pos (by simp)]
    · rw [if_neg (by simp [hx])]
      have hmem : a ∈ xs := by
        rcases List.mem_cons.mp h with rfl | hm
        · exact absurd rfl hx
        · exact hm
      exact ((ih hmem).cons x).trans (List.Perm.swap _ _ _)

theorem erase_perm_eraseIdx (l : Profile) (i : Nat) (h : i < l.length) :
    (l.erase l[i]).Perm (l.eraseIdx i) := by
  have h1 : l.Perm (l[i] :: l.erase l[i]) := perm_cons_erase_beq l[i] l (List.getElem_mem h)
  have h2 : l.Perm (l[i] :: l.eraseIdx i) := perm_cons_eraseIdx l i h
  exact (h1.symm.trans h2).cons_inv

/-- C10: each of plurality, Borda and Copeland scoring is invariant
under permutation of the ballots of a valid profile, with the score
maps equal as Python dictionaries; consequently deriving the incomplete
profile in `Experiment.manipulable` by removing the first ballot equal
to voter `i`'s ballot (`profile.remove`) rather than the ballot at index
`i` yields identical search results and the same winner sets even when
duplicate ballots exist. -/
theorem scores_perm_invariance (R : Rule) (hR : GoodRule R) (n : Nat) (p : Profile)
    (hn : 0 < n) (hval : ValidProfile n p) :
    (∀ p', p.Perm p' → ∃ m m', R p = .ok m ∧ R p' = .ok m' ∧ m.EquivD m') ∧
    (∀ (i : Nat) (hi : i < p.length),
      (∀ fav, search_manipulative_ballot R (p.erase p[i]) fav
            = search_manipulative_ballot R (p.eraseIdx i) fav) ∧
      ((∃ e, winners R (p.erase p[i]) = .error e ∧ winners R (p.eraseIdx i) = .error e) ∨
       (∃ w₁ w₂, winners R (p.erase p[i]) = .ok w₁ ∧ winners R (p.eraseIdx i) = .ok w₂ ∧
         ∀ a, a ∈ w₁ ↔ a ∈ w₂))) := by
  obtain ⟨hne, hvb⟩ := hval
  have hRS : RuleSpec R := by
    rcases hR with rfl | rfl | rfl
    exacts [plurality_spec, borda_spec, copeland_spec]
  constructor
  · intro p' hperm
    have hvb' : ∀ b ∈ p', b.Perm (List.range n) := fun b hb => hvb b (hperm.mem_iff.mpr hb)
    have hne' : p' ≠ [] := by
      intro hnil
      rw [hnil] at hperm
      exact hne hperm.eq_nil
    obtain ⟨m, hm⟩ := hRS.ok_valid n p hn hne hvb
    obtain ⟨m', hm'⟩ := hRS.ok_valid n p' hn hne' hvb'
    have hhead : (p.headD []).length = (p'.headD []).length := by
      match p, hne, hvb, p', hne', hvb' with
      | b0 :: t, _, hvb, b0' :: t', _, hvb' =>
        show b0.length = b0'.length
        rw [valid_ballot_length b0 n (hvb b0 (List.mem_cons_self _ _)),
          valid_ballot_length b0' n (hvb' b0' (List.mem_cons_self _ _))]
    rcases rule_perm_cong R hR p p' hperm hhead with ⟨e, he, _⟩ | ⟨m₁, m₂, h1, h2, hEq⟩
    · rw [hm] at he
      exact absurd he (by simp)
    · have hmeq : m = m₁ := Except.ok.inj (hm.symm.trans h1)
      have hmeq' : m' = m₂ := Except.ok.inj (hm'.symm.trans h2)
      refine ⟨m, m', hm, hm', ?_⟩
      rw [hmeq, hmeq']
      exact hEq
  · intro i hi
    have hperm12 : (p.erase p[i]).Perm (p.eraseIdx i) := erase_perm_eraseIdx p i hi
    have hsubs₁ : ∀ w ∈ p.erase p[i], w ∈ p := fun w hw => List.mem_of_mem_erase hw
    have hsubs₂ : ∀ w ∈ p.eraseIdx i, w ∈ p :=
      fun w hw => (List.eraseIdx_sublist p i).subset hw
    constructor
    · intro fav
      cases hc₁ : p.erase p[i] with
      | nil =>
        have hc₂ : p.eraseIdx i = [] := by
          rw [hc₁] at hperm12
          exact hperm12.symm.eq_nil
        rw [hc₂]
      | cons x t₁ =>
        have hc₂ne : p.eraseIdx i ≠ [] := by
          intro hnil
          rw [hc₁, hnil] at hperm12
          exact List.cons_ne_nil x t₁ hperm12.eq_nil
        match hc₂ : p.eraseIdx i, hc₂ne with
        | y :: t₂, _ =>
          have hx : x ∈ p := hsubs₁ x (by rw [hc₁]; exact List.mem_cons_self _ _)
          have hy : y ∈ p := hsubs₂ y (by rw [hc₂]; exact List.mem_cons_self _ _)
          have hlen : x.length = y.length := by
            rw [valid_ballot_length x n (hvb x hx), valid_ballot_length y n (hvb y hy)]
          refine search_congr R x y t₁ t₂ fav hlen ?_
          intro w
          have hpw : ((x :: t₁) ++ [w]).Perm ((y :: t₂) ++ [w]) := by
            have := hperm12
            rw [hc₁, hc₂] at this
            exact this.append_right [w]
          refine rule_perm_cong R hR _ _ hpw ?_
          show x.length = y.length
          exact hlen
    · refine winners_congr R _ _ ?_
        (fun m hm => rule_keys_nodup R hR _ m hm)
        (fun m hm => rule_keys_nodup R hR _ m hm)
      refine rule_perm_cong R hR _ _ hperm12 ?_
      cases hc₁ : p.erase p[i] with
      | nil =>
        have hc₂ : p.eraseIdx i = [] := by
          rw [hc₁] at hperm12
          exact hperm12.symm.eq_nil
        rw [hc₂]
      | cons x t₁ =>
        have hc₂ne : p.eraseIdx i ≠ [] := by
          intro hnil
          rw [hc₁, hnil] at hperm12
          exact List.cons_ne_nil x t₁ hperm12.eq_nil
        match hc₂ : p.eraseIdx i, hc₂ne with
        | y :: t₂, _ =>
          have hx : x ∈ p := hsubs₁ x (by rw [hc₁]; exact List.mem_cons_self _ _)
          have hy : y ∈ p := hsubs₂ y (by rw [hc₂]; exact List.mem_cons_self _ _)
          show x.length = y.length
          rw [valid_ballot_length x n (hvb x hx), valid_ballot_length y n (hvb y hy)]

/-- C10, witness: Borda scores of `[[0,1],[1,0],[0,1]]` are
dictionary-equal to those of the reordered `[[0,1],[0,1],[1,0]]`. -/
theorem scores_perm_invariance_witness :
    ∃ m m', borda_scores [[0,1],[1,0],[0,1]] = .ok m ∧
      borda_scores [[0,1],[0,1],[1,0]] = .ok m' ∧ m.EquivD m' :=
  (scores_perm_invariance borda_scores (Or.inr (Or.inl rfl)) 2 [[0,1],[1,0],[0,1]]
    (by decide) ⟨by decide, by decide⟩).1 [[0,1],[0,1],[1,0]] (by decide)
